import Mathlib

/-!
Verification of the attachment tree/index composition engine of
`src/compose/compose.c`.

The engine keeps two synchronized representations of the outgoing message:
a singly-linked sibling/child tree of MIME `Body` nodes and a flat array of
`AttachPtr` entries.  We embed the C data model as an arena: `Body` nodes
live in a `List Body` and are addressed by their list index; the C pointer
fields `next` and `parts` become `Option Nat` indices into the arena.
Every structural edit operation of the compose screen is translated
function-by-function from the source; loops over pointer chains become
fuel-bounded recursions (the fuel is always at least the arena size plus
one, which is enough for every acyclic chain).
-/

/-! ## Constants from the email library headers -/

/-- `TYPE_MULTIPART` from the `ContentType` enumeration. -/
def TYPE_MULTIPART : Nat := 6

/-- `TYPE_TEXT` from the `ContentType` enumeration. -/
def TYPE_TEXT : Nat := 7

/-- `DISP_INLINE` from the `ContentDisposition` enumeration. -/
def DISP_INLINE : Nat := 0

/-- `DISP_ATTACH` from the `ContentDisposition` enumeration. -/
def DISP_ATTACH : Nat := 1

/-- `ENC_QUOTED_PRINTABLE` from the `ContentEncoding` enumeration. -/
def ENC_QUOTED_PRINTABLE : Nat := 3

/-- `ENC_BASE64` from the `ContentEncoding` enumeration. -/
def ENC_BASE64 : Nat := 4

/-- `ENC_7BIT` from the `ContentEncoding` enumeration. -/
def ENC_7BIT : Nat := 1

/-! ## Data model -/

/-- The byte-classification counts of `struct Content` that
`cum_attachs_size` reads (`hibin`, `lobin`, `ascii`, `crlf`). -/
structure Content where
  hibin : Nat
  lobin : Nat
  ascii : Nat
  crlf : Nat
deriving DecidableEq, Repr

/-- The fields of `struct Body` that the compose engine reads or writes.
`next` and `parts` are arena indices; `hasEmail` models the nullability of
`body->email` (a back-reference to an embedded message). -/
structure Body where
  btype : Nat := 0
  subtype : String := ""
  disposition : Nat := DISP_INLINE
  encoding : Nat := ENC_7BIT
  tagged : Bool := false
  unlink : Bool := false
  language : Option String := none
  description : Option String := none
  filename : Option String := none
  content : Option Content := none
  stamp : Int := 0
  hasEmail : Bool := false
  next : Option Nat := none
  parts : Option Nat := none
deriving DecidableEq, Repr

/-- A flat-array entry, `struct AttachPtr`: an owning reference to a body
(arena index), the nesting depth `level`, the display-order number `num`,
and the `unowned` marker. -/
structure AttachPtr where
  body : Nat
  level : Nat := 0
  num : Int := 0
  unowned : Bool := false
deriving DecidableEq, Repr

instance : Inhabited AttachPtr := ⟨{ body := 0 }⟩

/-- The session state: the body arena, the root node `e->body`, the flat
array `actx->idx`, and the menu cursor `menu->current`. -/
structure St where
  heap : List Body
  root : Nat
  idx : List AttachPtr
  cur : Nat := 0
deriving DecidableEq, Repr

/-- Read a body from the arena (a dangling index reads as a default body;
no theorem depends on that case). -/
def getB (heap : List Body) (b : Nat) : Body := heap.getD b {}

/-- Write a body field update into the arena. -/
def setB (heap : List Body) (b : Nat) (f : Body → Body) : List Body :=
  heap.set b (f (getB heap b))

/-- Read a flat-array entry. -/
def getAP (idx : List AttachPtr) (i : Nat) : AttachPtr := idx.getD i default

/-- Modelled from the spec: `mutt_is_multipart_encrypted` lives in the
crypto library, not under `src/`.  Per §4.1 a composite that represents an
already-encrypted bundle is treated as a leaf and never expanded; the
classifier recognises it by its subtype. -/
def mutt_is_multipart_encrypted (b : Body) : Bool := b.subtype == "encrypted"

/-- The expansion test of `mutt_gen_compose_attach_list` (compose.c:1131):
a multipart with children is recursed into unless it is an encrypted
bundle (`WithCrypto & APPLICATION_PGP` is treated as enabled). -/
def expandsAsMultipart (b : Body) : Bool :=
  b.btype == TYPE_MULTIPART && b.parts.isSome && !(mutt_is_multipart_encrypted b)

/-! ## Tree flattening -/

/-- `mutt_gen_compose_attach_list` (compose.c:1126): flatten the tree into
the display list.  The source records each kept node in an `AttachPtr`
with its nesting `level`; we return the `(node identity, depth)` pairs.
Note that the recursion into a multipart's children passes `level`
unchanged and does not record the multipart itself. -/
def mutt_gen_compose_attach_list (heap : List Body) :
    Nat → Option Nat → Nat → List (Nat × Nat)
  | 0, _, _ => []
  | _ + 1, none, _ => []
  | fuel + 1, some m, level =>
    let B := getB heap m
    if expandsAsMultipart B then
      mutt_gen_compose_attach_list heap fuel B.parts level ++
        mutt_gen_compose_attach_list heap fuel B.next level
    else
      (m, level) :: mutt_gen_compose_attach_list heap fuel B.next level

/-- Re-flattening a state from its root, with fuel covering any acyclic
tree in the arena. -/
def flattenSt (s : St) : List (Nat × Nat) :=
  mutt_gen_compose_attach_list s.heap (s.heap.length + 1) (some s.root) 0

/-- The `(node identity, depth)` sequence of the maintained flat array. -/
def idxPairs (s : St) : List (Nat × Nat) := s.idx.map (fun a => (a.body, a.level))

/-! ## Error taxonomy (the `mutt_error` messages of the handlers) -/

/-- The typed rejection reasons of the edit operations. -/
inductive CErr
  | noAttachments
  | soleAttachment
  | alreadyTop
  | alreadyBottom
  | fundamentalPart
  | fewerThanTwoTagged
  | notSending
deriving DecidableEq, Repr

/-! ## Delete -/

/-- The predecessor scan of `delete_attachment` (compose.c:1082): the first
array position `y` whose body's `next` is the victim. -/
def findY (heap : List Body) (idx : List AttachPtr) (target : Nat) : Option Nat :=
  idx.findIdx? (fun a => (getB heap a.body).next == some target)

/-- `delete_attachment` (compose.c:1070).  `rindex` is `actx->v2r[x]`; the
view-to-storage map lives in the menu/attach library (not under `src/`) and
per spec §3 is the identity permutation while no entries are hidden, so the
callers below pass the view index straight through.  `mutt_body_free` only
releases memory; the freed node simply becomes unreferenced garbage in the
arena. -/
def delete_attachment (s : St) (rindex : Nat) : St × Option CErr :=
  if rindex = 0 ∧ s.idx.length = 1 then
    ({ s with heap := setB s.heap (getAP s.idx 0).body (fun b => { b with tagged := false }) },
      some .soleAttachment)
  else
    let target := (getAP s.idx rindex).body
    let heap1 :=
      match findY s.heap s.idx target with
      | some y => setB s.heap (getAP s.idx y).body
          (fun b => { b with next := (getB s.heap target).next })
      | none => s.heap
    let heap2 := setB heap1 target (fun b => { b with next := none })
    let heap3 :=
      if (getB heap2 target).hasEmail then heap2
      else setB heap2 target (fun b => { b with parts := none })
    ({ s with heap := heap3, idx := s.idx.eraseIdx rindex }, none)

/-- The `OP_DELETE` handler (compose.c:2250): `CHECK_COUNT` guards the
empty array, an unowned entry has its `unlink` flag dropped first, and on
success the menu cursor is clamped (`mutt_update_compose_menu`) and the
root is refreshed when the first entry was removed. -/
def opDelete (s : St) : St × Option CErr :=
  if s.idx.length = 0 then (s, some .noAttachments)
  else
    let s0 :=
      if (getAP s.idx s.cur).unowned then
        { s with heap := setB s.heap (getAP s.idx s.cur).body (fun b => { b with unlink := false }) }
      else s
    match delete_attachment s0 s0.cur with
    | (s1, some e) => (s1, some e)
    | (s1, none) =>
      let s2 := { s1 with cur := if s1.cur ≥ s1.idx.length then s1.idx.length - 1 else s1.cur }
      let s3 := if s2.cur = 0 then { s2 with root := (getAP s2.idx 0).body } else s2
      (s3, none)

/-! ## Swap-adjacent -/

/-- The predecessor walk of `compose_attach_swap` (compose.c:1271): follow
`next` links from the message root looking for the node whose `next` is
the entry being moved. -/
def findPred (heap : List Body) : Nat → Option Nat → Nat → Option Nat
  | 0, _, _ => none
  | _ + 1, none, _ => none
  | fuel + 1, some p, target =>
    if (getB heap p).next = some target then some p
    else findPred heap fuel (getB heap p).next target

/-- `compose_attach_swap` (compose.c:1267): repoint the three sibling links
(when the walk finds the predecessor), exchange the two array entries, and
exchange their display-order numbers. -/
def compose_attach_swap (s : St) (first : Nat) : St :=
  let bf := (getAP s.idx first).body
  let bs := (getAP s.idx (first + 1)).body
  let heap1 :=
    match findPred s.heap (s.heap.length + 1) (some s.root) bf with
    | some p =>
      let h := setB s.heap bf (fun b => { b with next := (getB s.heap bs).next })
      let h := setB h bs (fun b => { b with next := some bf })
      setB h p (fun b => { b with next := some bs })
    | none => s.heap
  let af := getAP s.idx first
  let asnd := getAP s.idx (first + 1)
  let idx1 := (s.idx.set first { asnd with num := af.num }).set (first + 1) { af with num := asnd.num }
  { s with heap := heap1, idx := idx1 }

/-- The `OP_COMPOSE_MOVE_UP` handler (compose.c:1805). -/
def opMoveUp (s : St) : St × Option CErr :=
  if s.cur = 0 then (s, some .alreadyTop)
  else if s.cur = 1 then (s, some .fundamentalPart)
  else ({ compose_attach_swap s (s.cur - 1) with cur := s.cur - 1 }, none)

/-- The `OP_COMPOSE_MOVE_DOWN` handler (compose.c:1821).  The first guard
compares `menu->current` with `actx->idxlen - 1` in C `int` arithmetic. -/
def opMoveDown (s : St) : St × Option CErr :=
  if (s.cur : Int) = (s.idx.length : Int) - 1 then (s, some .alreadyBottom)
  else if s.cur = 0 then (s, some .fundamentalPart)
  else ({ compose_attach_swap s s.cur with cur := s.cur + 1 }, none)

/-! ## Appending and inserting entries -/

/-- Modelled from the spec: `mutt_actx_add_attach` (attach library, not
under `src/`) appends the entry at the tail of the flat array (§3). -/
def mutt_actx_add_attach (idx : List AttachPtr) (ap : AttachPtr) : List AttachPtr :=
  idx ++ [ap]

/-- Modelled from the spec: `mutt_actx_ins_attach` (attach library, not
under `src/`) inserts the entry at the given storage position of the flat
array (§3, §4.3). -/
def mutt_actx_ins_attach (idx : List AttachPtr) (ap : AttachPtr) (aidx : Nat) : List AttachPtr :=
  idx.insertIdx aidx ap

/-- `update_idx` (compose.c:1185): give the new entry the depth of the last
entry, chain its body after the last entry's body, append it, and select
it. -/
def update_idx (s : St) (ap : AttachPtr) : St :=
  let lvl := if s.idx.length > 0 then (getAP s.idx (s.idx.length - 1)).level else 0
  let ap1 := { ap with level := lvl }
  let heap :=
    if s.idx.length ≠ 0 then
      setB s.heap (getAP s.idx (s.idx.length - 1)).body (fun b => { b with next := some ap1.body })
    else s.heap
  { s with heap := heap, idx := mutt_actx_add_attach s.idx ap1, cur := s.idx.length }

/-- `insert_idx` (compose.c:1203): link the new body behind position
`aidx - 1` and in front of position `aidx` when the depths agree, insert
the entry at `aidx`, and select it. -/
def insert_idx (s : St) (ap : AttachPtr) (aidx : Nat) : St :=
  let heap :=
    if aidx > 0 ∧ ap.level = (getAP s.idx (aidx - 1)).level then
      setB s.heap (getAP s.idx (aidx - 1)).body (fun b => { b with next := some ap.body })
    else s.heap
  let heap :=
    if aidx < s.idx.length ∧ ap.level = (getAP s.idx aidx).level then
      setB heap ap.body (fun b => { b with next := some (getAP s.idx aidx).body })
    else heap
  { s with heap := heap, idx := mutt_actx_ins_attach s.idx ap aidx, cur := aidx }

/-- The attach-a-new-part flow (e.g. `OP_COMPOSE_ATTACH_FILE`,
compose.c:2043): a ready-made leaf body is allocated by a collaborator and
handed to `update_idx`. -/
def opAppend (s : St) (nb : Body) : St :=
  update_idx { s with heap := s.heap ++ [nb] } { body := s.heap.length }

/-- The insert-at flow (spec §4.3, realised by `insert_idx`): a ready-made
top-level body is allocated and spliced in at position `aidx`. -/
def opInsert (s : St) (nb : Body) (aidx : Nat) : St :=
  insert_idx { s with heap := s.heap ++ [nb] } { body := s.heap.length } aidx

/-! ## Grouping -/

/-- Modelled from the spec: `menu->tagged` (menu library, not under
`src/`) — §3's "count of tagged entries" over the flat array. -/
def menuTagged (s : St) : Nat :=
  (s.idx.filter (fun a => (getB s.heap a.body).tagged)).length

/-- The shared set-description-from-first-member step of both grouping
walks (compose.c:1864-1875 and 1986-1997): when the composite has no
description yet and the collected node offers a description or filename,
format the group description from it. -/
def descUpdate (pre : String) (heap : List Body) (g bp : Nat) : List Body :=
  if (getB heap g).description = none then
    match ((getB heap bp).description).orElse (fun _ => (getB heap bp).filename) with
    | some p => setB heap g (fun b => { b with description := some (pre ++ p ++ "\"") })
    | none => heap
  else heap

/-- The compaction step inside `OP_COMPOSE_GROUP_ALTS`
(compose.c:1885-1900), for `i > glastidx + 1` with `k = glastidx`.  The C
loop walks `j` from `i` down to `k + 2`, bumping the display number of the
struct currently in slot `j` and then repointing slot `j` to the struct in
slot `j - 1`.  Slots above `j` have already been repointed when iteration
`j` runs, so each bump hits the original occupant of slot `j`.  Net
effect: the occupant of slot `i` moves to slot `k + 1` with its number
finally restored to `saved_num`, the occupants of slots `k + 1 .. i - 1`
move one slot right, and of those the ones originally in slots
`k + 2 .. i - 1` carry a number one higher. -/
def bumpNums : List AttachPtr → List AttachPtr
  | [] => []
  | x :: xs => x :: xs.map (fun a => { a with num := a.num + 1 })

/-- The array rearrangement of the compaction step (see `bumpNums`). -/
def altsShift (idx : List AttachPtr) (k i : Nat) : List AttachPtr :=
  idx.take (k + 1) ++ [getAP idx i] ++ bumpNums ((idx.drop (k + 1)).take (i - (k + 1))) ++
    idx.drop (i + 1)

/-- The working state of the grouping walk of `OP_COMPOSE_GROUP_ALTS`. -/
structure GWork where
  heap : List Body
  idx : List AttachPtr
  gidx : Nat
  glastidx : Nat
  glevel : Nat
  alts : Option Nat
deriving Repr

/-- The walk of `OP_COMPOSE_GROUP_ALTS` (compose.c:1853-1921): traverse the
top-level sibling chain from `e->body`; collect every tagged node into the
private child chain of the new composite `g` (clearing its tag and forcing
inline disposition), compact the flat array so the collected entries sit
right after `glastidx`, repair the shifted span's chain link, and raise the
collected entry's depth. -/
def altsLoop (g : Nat) : Nat → Option Nat → Nat → GWork → GWork
  | 0, _, _, w => w
  | _ + 1, none, _, w => w
  | fuel + 1, some bp, i, w =>
    if (getB w.heap bp).tagged then
      let heap := setB w.heap bp (fun b => { b with tagged := false, disposition := DISP_INLINE })
      let heap := descUpdate "Alternatives for \"" heap g bp
      match w.alts with
      | some a =>
        let heap := setB heap a (fun b => { b with next := some bp })
        let bptr' := (getB heap bp).next
        let heap := setB heap bp (fun b => { b with next := none })
        let hi :=
          if i > w.glastidx + 1 then
            let idx' := altsShift w.idx w.glastidx i
            let heap' :=
              if w.idx.length - 1 > i then
                setB heap (getAP idx' i).body
                  (fun b => { b with next := some (getAP idx' (i + 1)).body })
              else
                setB heap (getAP idx' i).body (fun b => { b with next := none })
            (heap', idx')
          else (heap, w.idx)
      let glastidx := w.glastidx + 1
      let idx := hi.2.set glastidx { getAP hi.2 glastidx with level := w.glevel + 1 }
      altsLoop g fuel bptr' (i + 1)
        { heap := hi.1, idx := idx, gidx := w.gidx, glastidx := glastidx,
          glevel := w.glevel, alts := some bp }
      | none =>
        let gidx := i
        let glastidx := i
        let glevel := (getAP w.idx i).level
        let heap := setB heap g (fun b => { b with parts := some bp })
        let bptr' := (getB heap bp).next
        let heap := setB heap bp (fun b => { b with next := none })
        let idx := w.idx.set glastidx { getAP w.idx glastidx with level := glevel + 1 }
        altsLoop g fuel bptr' (i + 1)
          { heap := heap, idx := idx, gidx := gidx, glastidx := glastidx,
            glevel := glevel, alts := some bp }
    else
      altsLoop g fuel (getB w.heap bp).next (i + 1) w

/-- The `OP_COMPOSE_GROUP_ALTS` handler (compose.c:1837): guard on fewer
than two tagged entries, allocate the `multipart/alternative` composite,
run the walk, point the composite at the entry following the collected
block, fall back to a placeholder description, splice the composite in at
the first collected position via `insert_idx`, and refresh the root.
`mutt_generate_boundary` only adds a MIME parameter and is not modelled. -/
def opGroupAlts (s : St) : St × Option CErr :=
  if menuTagged s < 2 then (s, some .fewerThanTwoTagged)
  else
    let g := s.heap.length
    let group : Body := { btype := TYPE_MULTIPART, subtype := "alternative",
                          disposition := DISP_INLINE }
    let heap0 := s.heap ++ [group]
    let w := altsLoop g (heap0.length + 1) (some s.root) 0
      { heap := heap0, idx := s.idx, gidx := 0, glastidx := 0, glevel := 0, alts := none }
    let heap1 :=
      if w.idx.length - 1 > w.glastidx then
        setB w.heap g (fun b => { b with next := some (getAP w.idx (w.glastidx + 1)).body })
      else
        setB w.heap g (fun b => { b with next := none })
    let heap2 :=
      if (getB heap1 g).description = none then
        setB heap1 g (fun b => { b with description := some "unknown alternative group" })
      else heap1
    let s1 : St := { heap := heap2, root := s.root, idx := w.idx, cur := s.cur }
    let s2 := insert_idx s1 { body := g, level := w.glevel } w.gidx
    ({ s2 with root := (getAP s2.idx 0).body, cur := w.gidx }, none)

/-- The count of top-level tagged parts carrying a non-empty
`Content-Language`, from the pre-walk of `OP_COMPOSE_GROUP_LINGUAL`
(compose.c:1956-1959). -/
def taggedWithLang (heap : List Body) : Nat → Option Nat → Nat
  | 0, _ => 0
  | _ + 1, none => 0
  | fuel + 1, some bp =>
    let B := getB heap bp
    (if B.tagged && (match B.language with | some l => l != "" | none => false) then 1 else 0) +
      taggedWithLang heap fuel B.next

/-- The walk of `OP_COMPOSE_GROUP_LINGUAL` (compose.c:1976-2027): like the
alternatives walk it collects every tagged node of the top-level chain into
the composite's child chain, but it removes the collected entry from the
flat array instead of compacting, and it performs no chain repair at all.
The C removal shifts `idx[i+1..]` down and decrements `idxlen`; when `i`
already points past the last slot that still drops the last entry. -/
def lingualLoop (g : Nat) :
    Nat → Option Nat → Nat → List Body → List AttachPtr → Option Nat →
    List Body × List AttachPtr
  | 0, _, _, heap, idx, _ => (heap, idx)
  | _ + 1, none, _, heap, idx, _ => (heap, idx)
  | fuel + 1, some bp, i, heap, idx, alts =>
    if (getB heap bp).tagged then
      let heap := setB heap bp (fun b => { b with tagged := false, disposition := DISP_INLINE })
      let heap := descUpdate "Multilingual part for \"" heap g bp
      let hb :=
        match alts with
        | some a =>
          let heap := setB heap a (fun b => { b with next := some bp })
          let n := (getB heap bp).next
          (setB heap bp (fun b => { b with next := none }), n)
        | none =>
          let heap := setB heap g (fun b => { b with parts := some bp })
          let n := (getB heap bp).next
          (setB heap bp (fun b => { b with next := none }), n)
      let idx' := if i < idx.length then idx.eraseIdx i else idx.dropLast
      lingualLoop g fuel hb.2 i hb.1 idx' (some bp)
    else
      lingualLoop g fuel (getB heap bp).next (i + 1) heap idx alts

/-- The `OP_COMPOSE_GROUP_LINGUAL` handler (compose.c:1946): guard on fewer
than two tagged entries; when not every tagged part carries a
`Content-Language` tag, require confirmation (the `mutt_yesorno` answer is
the `confirm` argument) and abort on decline; then collect the tagged
top-level nodes into a `multipart/multilingual` composite and append it at
the tail via `update_idx`.  Unlike the alternatives handler it neither
repairs the predecessors' chain links nor refreshes `e->body`. -/
def opGroupLingual (confirm : Bool) (s : St) : St × Option CErr :=
  if menuTagged s < 2 then (s, some .fewerThanTwoTagged)
  else if menuTagged s ≠ taggedWithLang s.heap (s.heap.length + 1) (some s.root) ∧ ¬confirm then
    (s, some .notSending)
  else
    let g := s.heap.length
    let group : Body := { btype := TYPE_MULTIPART, subtype := "multilingual",
                          disposition := DISP_INLINE }
    let heap0 := s.heap ++ [group]
    let hi := lingualLoop g (heap0.length + 1) (some s.root) 0 heap0 s.idx none
    let heap1 := setB hi.1 g (fun b => { b with next := none })
    let heap2 :=
      if (getB heap1 g).description = none then
        setB heap1 g (fun b => { b with description := some "unknown multilingual group" })
      else heap1
    let s1 : St := { heap := heap2, root := s.root, idx := hi.2, cur := s.cur }
    (update_idx s1 { body := g }, none)

/-! ## Content statistics -/

/-- Modelled from the spec: `mutt_get_content_info` (send library, not
under `src/`) classifies the backing file's bytes (§4.8).  The
classification an existing file would yield is supplied by the
environment `fs`, keyed by filename; a part without a filename has no
backing file to classify. -/
def mutt_get_content_info (fs : String → Option Content) (fname : Option String) :
    Option Content :=
  fname.bind fs

/-- One entry's contribution inside the loop of `cum_attachs_size`
(compose.c:1311-1334): compute the content info lazily when absent, then
estimate the post-transfer-encoding size by the entry's encoding. -/
def attachSize (fs : String → Option Content) (heap : List Body) (a : AttachPtr) : Nat :=
  let b := getB heap a.body
  let info := if b.content = none then mutt_get_content_info fs b.filename else b.content
  match info with
  | none => 0
  | some info =>
    if b.encoding = ENC_QUOTED_PRINTABLE then
      3 * (info.lobin + info.hibin) + info.ascii + info.crlf
    else if b.encoding = ENC_BASE64 then
      (4 * (info.lobin + info.hibin + info.ascii + info.crlf)) / 3
    else
      info.lobin + info.hibin + info.ascii + info.crlf

/-- `cum_attachs_size` (compose.c:1301): the aggregate estimated size of
the attachment list after content-transfer-encodings are applied.  The
lazy `b->content` cache write of the loop only affects the entry being
summed, so the accumulation is a plain sum of per-entry contributions. -/
def cum_attachs_size (fs : String → Option Content) (s : St) : Nat :=
  (s.idx.map (attachSize fs s.heap)).sum

/-! ## Pre-finalize validation -/

/-- `mutt_yesorno` answers for the re-encode prompt. -/
inductive Quad
  | yes
  | no
  | abort
deriving DecidableEq, Repr

/-- The result of the pre-finalize scan: success, a missing backing file at
an entry, or a user abort at an entry's staleness prompt. -/
inductive CheckResult
  | ok
  | statFail (i : Nat)
  | aborted (i : Nat)
deriving DecidableEq, Repr

/-- The loop of `check_attachments` (compose.c:769-809).  `mtimeOf` is the
`stat` oracle (`none` means the file cannot be stat'ed), `ans i` the user's
answer about entry `i`.  The `MUTT_YES` branch calls
`mutt_update_encoding` (not under `src/`), which rewrites entry `i`'s
cached classification and stamp; that write cannot change how any later
entry is scanned, so the scan's result is computed without threading the
arena. -/
def check_go (mtimeOf : String → Option Int) (ans : Nat → Quad) (heap : List Body) :
    Nat → List AttachPtr → CheckResult
  | _, [] => .ok
  | i, a :: rest =>
    let b := getB heap a.body
    if b.btype = TYPE_MULTIPART then check_go mtimeOf ans heap (i + 1) rest
    else
      match b.filename.bind mtimeOf with
      | none => .statFail i
      | some mt =>
        if b.stamp < mt then
          match ans i with
          | .abort => .aborted i
          | _ => check_go mtimeOf ans heap (i + 1) rest
        else check_go mtimeOf ans heap (i + 1) rest

/-- `check_attachments` (compose.c:763). -/
def check_attachments (mtimeOf : String → Option Int) (ans : Nat → Quad) (s : St) :
    CheckResult :=
  check_go mtimeOf ans s.heap 0 s.idx

/-- The gate at the head of `OP_COMPOSE_SEND_MESSAGE` (compose.c:2384) and
`OP_COMPOSE_POSTPONE_MESSAGE` (compose.c:2636): finalize proceeds past the
attachment check exactly when `check_attachments` succeeds. -/
def sendProceedsPastCheck (mtimeOf : String → Option Int) (ans : Nat → Quad) (s : St) :
    Prop :=
  check_attachments mtimeOf ans s = .ok

instance (mtimeOf : String → Option Int) (ans : Nat → Quad) (s : St) :
    Decidable (sendProceedsPastCheck mtimeOf ans s) := by
  unfold sendProceedsPastCheck
  infer_instance

/-! ## Arena access lemmas -/

theorem getB_setB_self (heap : List Body) (b : Nat) (f : Body → Body)
    (h : b < heap.length) : getB (setB heap b f) b = f (getB heap b) := by
  simp [getB, setB, List.getD, List.getElem?_set_self, h]

theorem getB_setB_ne (heap : List Body) (b : Nat) (f : Body → Body) (n : Nat)
    (h : n ≠ b) : getB (setB heap b f) n = getB heap n := by
  simp [getB, setB, List.getD, List.getElem?_set_ne, h, Ne.symm h]

theorem setB_length (heap : List Body) (b : Nat) (f : Body → Body) :
    (setB heap b f).length = heap.length := by
  simp [setB]

/-! ## Concrete states used in the counterexamples and witnesses -/

/-- Three top-level text leaves a, b, c (arena ids 0, 1, 2), chained
0 → 1 → 2, with b and c tagged: the state of spec §8 Scenario B. -/
def st3 : St :=
  { heap := [
      { btype := TYPE_TEXT, filename := some "a.txt", next := some 1 },
      { btype := TYPE_TEXT, filename := some "b.txt", next := some 2, tagged := true,
        disposition := DISP_ATTACH },
      { btype := TYPE_TEXT, filename := some "c.txt", tagged := true }],
    root := 0,
    idx := [{ body := 0 }, { body := 1, num := 1 }, { body := 2, num := 2 }] }

/-- Four top-level text leaves a, b, c, d (ids 0-3), chained 0 → 1 → 2 → 3,
with the middle two (b, c) tagged. -/
def st4 : St :=
  { heap := [
      { btype := TYPE_TEXT, filename := some "a.txt", next := some 1 },
      { btype := TYPE_TEXT, filename := some "b.txt", next := some 2, tagged := true },
      { btype := TYPE_TEXT, filename := some "c.txt", next := some 3, tagged := true },
      { btype := TYPE_TEXT, filename := some "d.txt" }],
    root := 0,
    idx := [{ body := 0 }, { body := 1, num := 1 }, { body := 2, num := 2 },
            { body := 3, num := 3 }] }

/-- A state carrying an existing composite: top-level chain a → G → b
(ids 0, 1, 4) where G is a `multipart/alternative` whose children are
x → y (ids 2, 3, at depth 1 in the flat array), with the nested x and the
top-level b tagged. -/
def stNested : St :=
  { heap := [
      { btype := TYPE_TEXT, filename := some "a.txt", next := some 1 },
      { btype := TYPE_MULTIPART, subtype := "alternative", parts := some 2, next := some 4 },
      { btype := TYPE_TEXT, filename := some "x.txt", next := some 3, tagged := true },
      { btype := TYPE_TEXT, filename := some "y.txt" },
      { btype := TYPE_TEXT, filename := some "b.txt", tagged := true }],
    root := 0,
    idx := [{ body := 0 }, { body := 1, num := 1 }, { body := 2, num := 2, level := 1 },
            { body := 3, num := 3, level := 1 }, { body := 4, num := 4 }] }

/-- A single base64-encoded leaf whose backing file holds one ascii byte. -/
def stB64 : St :=
  { heap := [{ btype := TYPE_TEXT, filename := some "x", encoding := ENC_BASE64 }],
    root := 0, idx := [{ body := 0 }] }

/-- The classification oracle for `stB64`'s file system. -/
def fsB64 : String → Option Content := fun n => if n = "x" then some ⟨0, 0, 1, 0⟩ else none

/-! ## C7: boundary and fundamental-part swap rejections -/

/-- **C7**: the first entry of the flat array (the fundamental part) never
participates in a swap in either direction: a move-up targeting position 0
or 1 and a move-down targeting position 0 are rejected with an error, as
is an attempt past either array boundary, and the state is unchanged on
rejection. -/
theorem fundamental_part_never_swapped (s : St) :
    (s.cur = 0 → opMoveUp s = (s, some CErr.alreadyTop)) ∧
    (s.cur = 1 → opMoveUp s = (s, some CErr.fundamentalPart)) ∧
    (s.cur = 0 → (opMoveDown s).1 = s ∧ ((opMoveDown s).2 = some CErr.alreadyBottom ∨
      (opMoveDown s).2 = some CErr.fundamentalPart)) ∧
    ((s.cur : Int) = (s.idx.length : Int) - 1 → opMoveDown s = (s, some CErr.alreadyBottom)) := by
  refine ⟨fun h => ?_, fun h => ?_, fun h => ?_, fun h => ?_⟩
  · simp [opMoveUp, h]
  · simp [opMoveUp, h]
  · by_cases hb : (s.cur : Int) = (s.idx.length : Int) - 1
    · simp [opMoveDown, hb]
    · have hb' : ¬((0 : Int) = (s.idx.length : Int) - 1) := by
        rw [h] at hb; simpa using hb
      simp [opMoveDown, hb', h]
  · simp [opMoveDown, h]

/-- **C7** witness: the concrete rejections on Scenario B's state. -/
theorem fundamental_part_never_swapped_witness :
    opMoveUp { st3 with cur := 1 } = ({ st3 with cur := 1 }, some CErr.fundamentalPart) ∧
    opMoveDown { st3 with cur := 2 } = ({ st3 with cur := 2 }, some CErr.alreadyBottom) :=
  ⟨(fundamental_part_never_swapped { st3 with cur := 1 }).2.1 rfl,
   (fundamental_part_never_swapped { st3 with cur := 2 }).2.2.2 (by decide)⟩

/-! ## C5: swap-adjacent has no depth check -/

/-- **C5** counterexample: in `stNested` the entries at visual positions 1
and 2 sit at different depths (0 and 1), yet a move-up targeting position
2 is not rejected: it succeeds and changes the flat array, contradicting
the claim that a swap of entries at different depths is rejected with the
tree and flat array unchanged. -/
theorem swap_depth_check_counterexample :
    (getAP stNested.idx 1).level ≠ (getAP stNested.idx 2).level ∧
    (opMoveUp { stNested with cur := 2 }).2 = none ∧
    (opMoveUp { stNested with cur := 2 }).1.idx ≠ stNested.idx := by decide

/-- **C5** (amended): swap-adjacent performs no depth comparison at all:
for any state, a move-up targeting a position other than 0 and 1 succeeds
regardless of the two entries' depths, exchanging the entries at positions
`cur - 1` and `cur` together with their display-order numbers (and a
move-down from a position other than 0 and the bottom succeeds likewise);
only the position guards of C7 ever reject a swap. -/
theorem swap_ignores_depth (s : St) (h2 : 2 ≤ s.cur) (hlt : s.cur < s.idx.length) :
    (opMoveUp s).2 = none ∧
    (opMoveUp s).1.idx =
      (s.idx.set (s.cur - 1) { getAP s.idx s.cur with num := (getAP s.idx (s.cur - 1)).num }).set
        s.cur { getAP s.idx (s.cur - 1) with num := (getAP s.idx s.cur).num } ∧
    (opMoveUp s).1.cur = s.cur - 1 ∧
    (1 ≤ s.cur → (s.cur : Int) ≠ (s.idx.length : Int) - 1 → (opMoveDown s).2 = none) := by
  have h0 : s.cur ≠ 0 := by omega
  have h1 : s.cur ≠ 1 := by omega
  have hsum : s.cur - 1 + 1 = s.cur := by omega
  refine ⟨?_, ?_, ?_, ?_⟩
  · simp [opMoveUp, h0, h1]
  · simp [opMoveUp, h0, h1, compose_attach_swap, hsum]
  · simp [opMoveUp, h0, h1]
  · intro _ hne
    simp [opMoveDown, h0, hne]

/-- **C5** witness: the amended behaviour at the concrete mixed-depth
state. -/
theorem swap_ignores_depth_witness :
    (opMoveUp { stNested with cur := 2 }).2 = none ∧
    (opMoveUp { stNested with cur := 2 }).1.idx =
      [{ body := 0 }, { body := 2, num := 1, level := 1 }, { body := 1, num := 2 },
       { body := 3, num := 3, level := 1 }, { body := 4, num := 4 }] := by
  have h := swap_ignores_depth { stNested with cur := 2 } (by decide) (by decide)
  exact ⟨h.1, by rw [h.2.1]; decide⟩

/-! ## C6: deleting the sole attachment -/

/-- **C6**: when the flat array holds exactly one entry, deleting it is
rejected with the sole-attachment error, the array (and so its length)
stays as it was, the root and every tree link are unchanged, and the only
side effect is clearing the sole node's tagged flag. -/
theorem delete_sole_attachment_rejected (s : St) (x : Nat)
    (h1 : s.idx.length = 1) (hx : x = 0)
    (hb : (getAP s.idx 0).body < s.heap.length) :
    (delete_attachment s x).2 = some CErr.soleAttachment ∧
    (delete_attachment s x).1.idx = s.idx ∧
    (delete_attachment s x).1.root = s.root ∧
    (delete_attachment s x).1.cur = s.cur ∧
    getB (delete_attachment s x).1.heap (getAP s.idx 0).body =
      { getB s.heap (getAP s.idx 0).body with tagged := false } ∧
    (∀ n, n ≠ (getAP s.idx 0).body → getB (delete_attachment s x).1.heap n = getB s.heap n) := by
  subst hx
  have hred : delete_attachment s 0 =
      ({ s with heap := setB s.heap (getAP s.idx 0).body (fun b => { b with tagged := false }) },
        some CErr.soleAttachment) := by
    unfold delete_attachment
    rw [if_pos ⟨rfl, h1⟩]
  rw [hred]
  refine ⟨rfl, rfl, rfl, rfl, ?_, ?_⟩
  · show getB (setB s.heap (getAP s.idx 0).body (fun b => { b with tagged := false }))
        (getAP s.idx 0).body = _
    exact getB_setB_self s.heap _ _ hb
  · intro n hn
    show getB (setB s.heap (getAP s.idx 0).body (fun b => { b with tagged := false })) n
        = getB s.heap n
    exact getB_setB_ne s.heap _ _ n hn

/-- **C6** witness: the rejection on a one-entry state. -/
theorem delete_sole_attachment_rejected_witness :
    (delete_attachment { heap := [{ btype := TYPE_TEXT, tagged := true }], root := 0,
                         idx := [{ body := 0 }] } 0).2 = some CErr.soleAttachment ∧
    (delete_attachment { heap := [{ btype := TYPE_TEXT, tagged := true }], root := 0,
                         idx := [{ body := 0 }] } 0).1.idx =
      [({ body := 0 } : AttachPtr)] :=
  have h := delete_sole_attachment_rejected
    { heap := [{ btype := TYPE_TEXT, tagged := true }], root := 0, idx := [{ body := 0 }] }
    0 (by decide) rfl (by decide)
  ⟨h.1, h.2.1⟩

/-! ## C4: the aggregate size estimate -/

/-- The spec's §4.8 per-leaf estimate as worded, reading the cached
classification (computing it from the backing file when absent):
quoted-printable `3×(high+low)+ascii+crlf`, base64 `⌈4/3 × total⌉`, any
other encoding the raw total. -/
def specLeafEstimateCeil (fs : String → Option Content) (heap : List Body)
    (a : AttachPtr) : Nat :=
  let b := getB heap a.body
  match (b.content).orElse (fun _ => mutt_get_content_info fs b.filename) with
  | none => 0
  | some info =>
    if b.encoding = ENC_QUOTED_PRINTABLE then
      3 * (info.lobin + info.hibin) + info.ascii + info.crlf
    else if b.encoding = ENC_BASE64 then
      (4 * (info.lobin + info.hibin + info.ascii + info.crlf) + 2) / 3
    else
      info.lobin + info.hibin + info.ascii + info.crlf

/-- The spec's §4.8 aggregate as worded: the sum of the per-leaf estimates
over all leaf (non-composite) attachments. -/
def specAggregateCeil (fs : String → Option Content) (s : St) : Nat :=
  ((s.idx.filter (fun a => (getB s.heap a.body).btype != TYPE_MULTIPART)).map
    (specLeafEstimateCeil fs s.heap)).sum

/-- **C4** counterexample: one base64 leaf backed by a one-byte file: the
code's aggregate is `⌊4·1/3⌋ = 1`, while the claim's
`⌈4/3 × total⌉` gives 2, so the claimed equality fails. -/
theorem base64_estimate_counterexample :
    cum_attachs_size fsB64 stB64 = 1 ∧ specAggregateCeil fsB64 stB64 = 2 ∧
    cum_attachs_size fsB64 stB64 ≠ specAggregateCeil fsB64 stB64 := by decide

/-- The spec's §4.8 per-leaf estimate with the base64 case amended to the
floor the code computes, `⌊4·total/3⌋`. -/
def specLeafEstimate (fs : String → Option Content) (heap : List Body)
    (a : AttachPtr) : Nat :=
  let b := getB heap a.body
  match (b.content).orElse (fun _ => mutt_get_content_info fs b.filename) with
  | none => 0
  | some info =>
    if b.encoding = ENC_QUOTED_PRINTABLE then
      3 * (info.lobin + info.hibin) + info.ascii + info.crlf
    else if b.encoding = ENC_BASE64 then
      (4 * (info.lobin + info.hibin + info.ascii + info.crlf)) / 3
    else
      info.lobin + info.hibin + info.ascii + info.crlf

theorem attachSize_eq_specLeafEstimate (fs : String → Option Content) (heap : List Body)
    (a : AttachPtr) : attachSize fs heap a = specLeafEstimate fs heap a := by
  unfold attachSize specLeafEstimate
  cases h : (getB heap a.body).content <;> simp [h, Option.orElse]

/-- The summation core of the amended aggregate-size statement. -/
theorem cum_sum_aux (fs : String → Option Content) (heap : List Body) :
    ∀ l : List AttachPtr,
    (∀ a ∈ l, (getB heap a.body).btype = TYPE_MULTIPART →
      (getB heap a.body).content = none ∧ (getB heap a.body).filename = none) →
    (l.map (attachSize fs heap)).sum =
      ((l.filter (fun a => (getB heap a.body).btype != TYPE_MULTIPART)).map
        (specLeafEstimate fs heap)).sum := by
  intro l
  induction l with
  | nil => intro _; rfl
  | cons a l ih =>
    intro hmp
    have ha := hmp a (List.mem_cons_self a l)
    have hl : ∀ b ∈ l, (getB heap b.body).btype = TYPE_MULTIPART →
        (getB heap b.body).content = none ∧ (getB heap b.body).filename = none :=
      fun b hb => hmp b (List.mem_cons_of_mem a hb)
    by_cases hb : (getB heap a.body).btype = TYPE_MULTIPART
    · have hz : attachSize fs heap a = 0 := by
        unfold attachSize
        simp [(ha hb).1, (ha hb).2, mutt_get_content_info]
      simp [hz, hb, ih hl]
    · have hfa : (a :: l).filter (fun a => (getB heap a.body).btype != TYPE_MULTIPART)
          = a :: l.filter (fun a => (getB heap a.body).btype != TYPE_MULTIPART) := by
        simp [List.filter_cons, hb]
      rw [List.map_cons, List.sum_cons, hfa, List.map_cons, List.sum_cons,
        attachSize_eq_specLeafEstimate]
      exact congrArg (specLeafEstimate fs heap a + ·) (ih hl)

/-- **C4** (amended): the aggregate equals the sum over all leaf
(non-composite) entries of the per-leaf estimate computed from the cached
byte classification, with quoted-printable `3×(high+low)+ascii+crlf`,
base64 `⌊4·total/3⌋` (floor, not ceiling), and the raw total otherwise;
composite entries, which carry neither a cached classification nor a
backing file, contribute nothing. -/
theorem cum_attachs_size_eq_leaf_sum (fs : String → Option Content) (s : St)
    (hmp : ∀ a ∈ s.idx, (getB s.heap a.body).btype = TYPE_MULTIPART →
      (getB s.heap a.body).content = none ∧ (getB s.heap a.body).filename = none) :
    cum_attachs_size fs s =
      ((s.idx.filter (fun a => (getB s.heap a.body).btype != TYPE_MULTIPART)).map
        (specLeafEstimate fs s.heap)).sum :=
  cum_sum_aux fs s.heap s.idx hmp

/-- **C4** witness: the amended equality on a two-entry state holding one
composite and one quoted-printable leaf. -/
theorem cum_attachs_size_eq_leaf_sum_witness :
    cum_attachs_size fsB64 stB64 =
      ((stB64.idx.filter (fun a => (getB stB64.heap a.body).btype != TYPE_MULTIPART)).map
        (specLeafEstimate fsB64 stB64.heap)).sum :=
  cum_attachs_size_eq_leaf_sum fsB64 stB64 (by decide)

/-! ## C8: pre-finalize validation -/

/-- Entry `i` lets the pre-finalize scan continue: it is a composite
(skipped outright), or its backing file stats and any staleness prompt is
not answered with abort. -/
def entrySurvives (mtimeOf : String → Option Int) (ans : Nat → Quad) (heap : List Body)
    (i : Nat) (a : AttachPtr) : Prop :=
  (getB heap a.body).btype = TYPE_MULTIPART ∨
  (∃ mt, (getB heap a.body).filename.bind mtimeOf = some mt ∧
    ((getB heap a.body).stamp < mt → ans i ≠ Quad.abort))

/-- Entry `a` is a non-composite whose backing file cannot be stat'ed. -/
def entryStatFails (mtimeOf : String → Option Int) (heap : List Body) (a : AttachPtr) : Prop :=
  (getB heap a.body).btype ≠ TYPE_MULTIPART ∧ (getB heap a.body).filename.bind mtimeOf = none

theorem check_go_ne_ok (mtimeOf : String → Option Int) (ans : Nat → Quad) (heap : List Body) :
    ∀ (l : List AttachPtr) (k : Nat), (∃ a ∈ l, entryStatFails mtimeOf heap a) →
    check_go mtimeOf ans heap k l ≠ .ok := by
  intro l
  induction l with
  | nil => intro k h; obtain ⟨a, ha, _⟩ := h; exact absurd ha (List.not_mem_nil a)
  | cons a l ih =>
    intro k h
    obtain ⟨w, hw, hfail⟩ := h
    unfold check_go
    by_cases hmp : (getB heap a.body).btype = TYPE_MULTIPART
    · have hwl : w ∈ l := by
        rcases List.mem_cons.mp hw with h' | h'
        · subst h'; exact absurd hmp hfail.1
        · exact h'
      simp only [hmp, if_true]
      exact ih (k + 1) ⟨w, hwl, hfail⟩
    · simp only [hmp, if_false]
      cases hst : (getB heap a.body).filename.bind mtimeOf with
      | none => simp
      | some mt =>
        have hwl : w ∈ l := by
          rcases List.mem_cons.mp hw with h' | h'
          · subst h'; rw [hfail.2] at hst; exact absurd hst (by simp)
          · exact h'
        by_cases hstale : (getB heap a.body).stamp < mt
        · simp only [hstale, if_true]
          cases hans : ans k with
          | abort => simp
          | yes => exact ih (k + 1) ⟨w, hwl, hfail⟩
          | no => exact ih (k + 1) ⟨w, hwl, hfail⟩
        · simp only [hstale, if_false]
          exact ih (k + 1) ⟨w, hwl, hfail⟩

theorem check_go_statFail (mtimeOf : String → Option Int) (ans : Nat → Quad) (heap : List Body) :
    ∀ (l : List AttachPtr) (k i : Nat), i < l.length →
    entryStatFails mtimeOf heap (getAP l i) →
    (∀ j, j < i → entrySurvives mtimeOf ans heap (k + j) (getAP l j)) →
    check_go mtimeOf ans heap k l = .statFail (k + i) := by
  intro l
  induction l with
  | nil => intro k i hi; simp at hi
  | cons a l ih =>
    intro k i hi hfail hbefore
    unfold check_go
    cases i with
    | zero =>
      have ha : getAP (a :: l) 0 = a := rfl
      rw [ha] at hfail
      simp only [hfail.1, if_false]
      rw [hfail.2]
      simp
    | succ i' =>
      have hsurv := hbefore 0 (Nat.succ_pos i')
      have ha0 : getAP (a :: l) 0 = a := rfl
      rw [ha0] at hsurv
      have hfail' : entryStatFails mtimeOf heap (getAP l i') := hfail
      have hbefore' : ∀ j, j < i' → entrySurvives mtimeOf ans heap (k + 1 + j) (getAP l j) := by
        intro j hj
        have := hbefore (j + 1) (Nat.succ_lt_succ hj)
        have harith : k + (j + 1) = k + 1 + j := by omega
        rw [harith] at this
        exact this
      have harith2 : k + (i' + 1) = k + 1 + i' := by omega
      rw [harith2]
      by_cases hmp : (getB heap a.body).btype = TYPE_MULTIPART
      · simp only [hmp, if_true]
        exact ih (k + 1) i' (Nat.lt_of_succ_lt_succ hi) hfail' hbefore'
      · simp only [hmp, if_false]
        rcases hsurv with h' | ⟨mt, hmt, habort⟩
        · exact absurd h' hmp
        · rw [hmt]
          by_cases hstale : (getB heap a.body).stamp < mt
          · simp only [hstale, if_true]
            cases hans : ans k with
            | abort => exact absurd hans (habort hstale)
            | yes => exact ih (k + 1) i' (Nat.lt_of_succ_lt_succ hi) hfail' hbefore'
            | no => exact ih (k + 1) i' (Nat.lt_of_succ_lt_succ hi) hfail' hbefore'
          · simp only [hstale, if_false]
            exact ih (k + 1) i' (Nat.lt_of_succ_lt_succ hi) hfail' hbefore'

/-- **C8**: a non-composite entry whose backing file cannot be stat'ed
makes the pre-finalize validation fail, so send/postpone does not proceed;
when the scan reaches that entry (every earlier entry is a composite —
skipped by the check — or stats fine without an abort answer), the
validation identifies exactly that entry's position. -/
theorem check_attachments_blocks_missing_file (mtimeOf : String → Option Int)
    (ans : Nat → Quad) (s : St) (i : Nat)
    (hi : i < s.idx.length)
    (hfail : entryStatFails mtimeOf s.heap (getAP s.idx i)) :
    ¬ sendProceedsPastCheck mtimeOf ans s ∧
    ((∀ j, j < i → entrySurvives mtimeOf ans s.heap j (getAP s.idx j)) →
      check_attachments mtimeOf ans s = .statFail i) := by
  constructor
  · have hmem : getAP s.idx i ∈ s.idx := by
      rw [getAP, List.getD_eq_getElem s.idx default hi]
      exact List.getElem_mem hi
    exact check_go_ne_ok mtimeOf ans s.heap s.idx 0 ⟨getAP s.idx i, hmem, hfail⟩
  · intro hbefore
    have := check_go_statFail mtimeOf ans s.heap s.idx 0 i hi hfail
      (fun j hj => by simpa using hbefore j hj)
    simpa [check_attachments] using this

/-- The file-modification-time oracle of the witness state: only
`ok.txt` exists. -/
def mtimeW : String → Option Int := fun n => if n = "ok.txt" then some 5 else none

/-- The witness state for the validation check: entry 0 is a composite
with no backing file, entry 1 a leaf whose file is gone. -/
def stChk : St :=
  { heap := [
      { btype := TYPE_MULTIPART, subtype := "alternative", parts := some 1 },
      { btype := TYPE_TEXT, filename := some "gone.txt" }],
    root := 0,
    idx := [{ body := 0 }, { body := 1, num := 1 }] }

/-- **C8** witness: validation fails at the missing file of entry 1 even
though the composite entry 0 has no file at all, and finalize is gated. -/
theorem check_attachments_blocks_missing_file_witness :
    ¬ sendProceedsPastCheck mtimeW (fun _ => Quad.yes) stChk ∧
    check_attachments mtimeW (fun _ => Quad.yes) stChk = .statFail 1 :=
  have h := check_attachments_blocks_missing_file mtimeW (fun _ => Quad.yes) stChk 1
    (by decide) (by constructor <;> decide)
  ⟨h.1, h.2 (fun j hj => by
    have hj0 : j = 0 := by omega
    subst hj0
    exact Or.inl (by decide))⟩

/-! ## C3: group-multilingual -/

/-- **C3**: evaluation of `OP_COMPOSE_GROUP_LINGUAL` at the failing input
`st4` (chain a → b → c → d with b, c tagged).  The flat array becomes
[a, d, group] with the composite appended at the tail and b, c collected
as its children in encounter order — but the tagged nodes are *not*
detached from the main chain: a's sibling link still points at b, so the
tree reachable from the root is still a → b → c, the untagged d and the
new composite are unreachable from the root, and b and c are
simultaneously children of the composite and members of the main chain.
The only link into the composite is the repoint of the last surviving
array entry (d) performed by `update_idx`. -/
theorem groupLingual_leaves_stale_chain :
    (opGroupLingual true st4).2 = none ∧
    idxPairs (opGroupLingual true st4).1 = [(0, 0), (3, 0), (4, 0)] ∧
    (getB (opGroupLingual true st4).1.heap 4).subtype = "multilingual" ∧
    (getB (opGroupLingual true st4).1.heap 4).parts = some 1 ∧
    (getB (opGroupLingual true st4).1.heap 1).next = some 2 ∧
    (getB (opGroupLingual true st4).1.heap 0).next = some 1 ∧
    (opGroupLingual true st4).1.root = 0 ∧
    flattenSt (opGroupLingual true st4).1 = [(0, 0), (1, 0), (2, 0)] ∧
    (getB (opGroupLingual true st4).1.heap 3).next = some 4 := by decide

/-! ## C1: flatten/array consistency -/

/-- **C1** counterexample: spec §8 Scenario B.  Grouping b and c of the
three-leaf state `st3` into an alternative succeeds, after which the
maintained flat array reads [a@0, alt@0, b@1, c@1] while re-flattening the
tree from its root yields [a@0, b@0, c@0] — the flattening skips the
composite node and keeps its children at the composite's own depth, so the
two sequences of (node identity, depth) pairs disagree after a successful
edit operation. -/
theorem groupAlts_breaks_flatten_consistency :
    (opGroupAlts st3).2 = none ∧
    idxPairs (opGroupAlts st3).1 = [(0, 0), (3, 0), (1, 1), (2, 1)] ∧
    flattenSt (opGroupAlts st3).1 = [(0, 0), (1, 0), (2, 0)] ∧
    flattenSt (opGroupAlts st3).1 ≠ idxPairs (opGroupAlts st3).1 := by decide

/-! ## Sibling-chain predicates -/

/-- The ids form a consecutive sibling chain under `heap`, with the last
id's `next` pointing at `stop` (and an empty segment imposing nothing). -/
def chainSeg (heap : List Body) : List Nat → Option Nat → Prop
  | [], _ => True
  | b :: rest, stop => (getB heap b).next = (rest.head?.orElse (fun _ => stop)) ∧
      chainSeg heap rest stop

theorem chainSeg_append (heap : List Body) (l1 : List Nat) (h2 : Nat) (t2 : List Nat)
    (stop : Option Nat) :
    chainSeg heap (l1 ++ h2 :: t2) stop ↔
      chainSeg heap l1 (some h2) ∧ chainSeg heap (h2 :: t2) stop := by
  induction l1 with
  | nil => simp [chainSeg]
  | cons b l1 ih =>
    cases l1 with
    | nil =>
      simp only [List.nil_append, List.singleton_append, chainSeg, List.head?_cons,
        List.head?_nil]
      constructor
      · rintro ⟨h1, h2'⟩
        exact ⟨⟨by simpa using h1, trivial⟩, h2'⟩
      · rintro ⟨⟨h1, -⟩, h2'⟩
        exact ⟨by simpa using h1, h2'⟩
    | cons c l1' =>
      simp only [List.cons_append, chainSeg, List.head?_cons] at ih ⊢
      constructor
      · rintro ⟨h1, hrest⟩
        have := ih.mp hrest
        exact ⟨⟨by simpa using h1, this.1⟩, this.2⟩
      · rintro ⟨⟨h1, hl⟩, h2'⟩
        exact ⟨by simpa using h1, ih.mpr ⟨hl, h2'⟩⟩

theorem chainSeg_congr (heap heap' : List Body) (l : List Nat) (stop : Option Nat)
    (h : ∀ b ∈ l, (getB heap' b).next = (getB heap b).next) :
    chainSeg heap l stop → chainSeg heap' l stop := by
  induction l with
  | nil => intro _; trivial
  | cons b rest ih =>
    intro hc
    exact ⟨(h b (List.mem_cons_self b rest)).trans hc.1,
      ih (fun x hx => h x (List.mem_cons_of_mem b hx)) hc.2⟩

/-- The flat-consistent states of spec §3: every entry at depth 0, the
entries' bodies forming the top-level sibling chain from the root, no
entry an expandable composite. -/
structure FlatState (s : St) : Prop where
  nonempty : s.idx ≠ []
  levels : ∀ a ∈ s.idx, a.level = 0
  bounded : ∀ a ∈ s.idx, a.body < s.heap.length
  nodup : (s.idx.map AttachPtr.body).Nodup
  linked : chainSeg s.heap (s.idx.map AttachPtr.body) none
  rootEq : s.root = (getAP s.idx 0).body
  noExpand : ∀ a ∈ s.idx, expandsAsMultipart (getB s.heap a.body) = false

theorem nodup_bounded_length (l : List Nat) (n : Nat) (hnd : l.Nodup)
    (hb : ∀ b ∈ l, b < n) : l.length ≤ n := by
  classical
  have h1 : l.toFinset.card = l.length := List.toFinset_card_of_nodup hnd
  have h2 : l.toFinset ⊆ Finset.range n := by
    intro x hx
    simp only [List.mem_toFinset] at hx
    exact Finset.mem_range.mpr (hb x hx)
  have := Finset.card_le_card h2
  simp [Finset.card_range, h1] at this
  omega

theorem gen_list_none (heap : List Body) (fuel level : Nat) :
    mutt_gen_compose_attach_list heap fuel none level = [] := by
  cases fuel <;> rfl

/-- Flattening a non-expanding sibling chain lists exactly its members in
order, all at the starting depth 0. -/
theorem gen_list_of_chainSeg (heap : List Body) :
    ∀ (ids : List Nat) (fuel : Nat), ids.length ≤ fuel →
    chainSeg heap ids none →
    (∀ b ∈ ids, expandsAsMultipart (getB heap b) = false) →
    mutt_gen_compose_attach_list heap fuel ids.head? 0 = ids.map (fun b => (b, 0)) := by
  intro ids
  induction ids with
  | nil => intro fuel _ _ _; simp [gen_list_none]
  | cons b rest ih =>
    intro fuel hlen hchain hnx
    cases fuel with
    | zero => simp at hlen
    | succ fuel =>
      have hb := hnx b (List.mem_cons_self b rest)
      show mutt_gen_compose_attach_list heap (fuel + 1) (some b) 0 = _
      unfold mutt_gen_compose_attach_list
      rw [if_neg (by simp [hb])]
      have hnext : (getB heap b).next = rest.head? := by
        have := hchain.1
        cases rest with
        | nil => simpa using this
        | cons c t => simpa using this
      rw [hnext, ih fuel (by simpa using hlen) hchain.2
        (fun x hx => hnx x (List.mem_cons_of_mem b hx))]
      rfl

/-- In a flat-consistent state, re-flattening reproduces the flat array's
(node identity, depth) sequence. -/
theorem flatten_of_flatState (s : St) (h : FlatState s) : flattenSt s = idxPairs s := by
  obtain ⟨a, t, ht⟩ : ∃ a t, s.idx = a :: t := by
    cases hidx : s.idx with
    | nil => exact absurd hidx h.nonempty
    | cons a t => exact ⟨a, t, rfl⟩
  have hhead : (s.idx.map AttachPtr.body).head? = some s.root := by
    rw [ht, h.rootEq, ht]
    rfl
  have hlen : (s.idx.map AttachPtr.body).length ≤ s.heap.length + 1 := by
    have := nodup_bounded_length (s.idx.map AttachPtr.body) s.heap.length h.nodup
      (by intro b hb
          obtain ⟨a', ha', rfl⟩ := List.mem_map.mp hb
          exact h.bounded a' ha')
    omega
  have hnx : ∀ b ∈ s.idx.map AttachPtr.body, expandsAsMultipart (getB s.heap b) = false := by
    intro b hb
    obtain ⟨a', ha', rfl⟩ := List.mem_map.mp hb
    exact h.noExpand a' ha'
  have := gen_list_of_chainSeg s.heap (s.idx.map AttachPtr.body) (s.heap.length + 1)
    hlen h.linked hnx
  rw [hhead] at this
  unfold flattenSt idxPairs
  rw [this, List.map_map]
  apply List.map_congr_left
  intro a' ha'
  simp [h.levels a' ha']

/-! ## More arena and array access lemmas -/

theorem getB_append_left (heap l : List Body) (b : Nat) (h : b < heap.length) :
    getB (heap ++ l) b = getB heap b := by
  simp [getB, List.getD, List.getElem?_append_left h]

theorem getB_append_self (heap : List Body) (nb : Body) :
    getB (heap ++ [nb]) heap.length = nb := by
  simp [getB, List.getD, List.getElem?_append_right (Nat.le_refl _)]

theorem expandsAsMultipart_set_next (b : Body) (x : Option Nat) :
    expandsAsMultipart { b with next := x } = expandsAsMultipart b := rfl

theorem getAP_eq (idx : List AttachPtr) (i : Nat) (h : i < idx.length) :
    getAP idx i = idx[i] :=
  List.getD_eq_getElem idx default h

theorem getAP_mem (idx : List AttachPtr) (i : Nat) (h : i < idx.length) :
    getAP idx i ∈ idx := by
  rw [getAP_eq idx i h]
  exact List.getElem_mem h

theorem getAP_append_left (l1 l2 : List AttachPtr) (i : Nat) (h : i < l1.length) :
    getAP (l1 ++ l2) i = getAP l1 i := by
  rw [getAP_eq _ i (by simp; omega), getAP_eq l1 i h]
  exact List.getElem_append_left h

theorem list_decomp_at (l : List Nat) (i : Nat) (h : i < l.length) :
    l = l.take i ++ l[i] :: l.drop (i + 1) := by
  conv_lhs => rw [← List.take_append_drop i l]
  rw [List.drop_eq_getElem_cons h]

/-! ## C1 preservation: append -/

theorem chainSeg_singleton (heap : List Body) (b : Nat) (stop : Option Nat) :
    chainSeg heap [b] stop ↔ (getB heap b).next = stop := by
  simp [chainSeg]

theorem opAppend_eq (s : St) (nb : Body) (h0 : s.idx ≠ []) :
    opAppend s nb =
      { heap := setB (s.heap ++ [nb]) (getAP s.idx (s.idx.length - 1)).body
          (fun b => { b with next := some s.heap.length }),
        root := s.root,
        idx := s.idx ++ [{ body := s.heap.length, level := (getAP s.idx (s.idx.length - 1)).level }],
        cur := s.idx.length } := by
  have hlen : s.idx.length > 0 := List.length_pos.mpr h0
  have hne : s.idx.length ≠ 0 := by omega
  simp only [opAppend, update_idx, mutt_actx_add_attach, hlen, hne, if_true, if_pos,
    ne_eq, not_false_eq_true]

theorem opAppend_preserves_flat (s : St) (nb : Body) (h : FlatState s)
    (hnb : nb.next = none) (hnx : expandsAsMultipart nb = false) :
    FlatState (opAppend s nb) := by
  have h0 := h.nonempty
  have hlen : 0 < s.idx.length := List.length_pos.mpr h0
  have hlast_mem : getAP s.idx (s.idx.length - 1) ∈ s.idx := getAP_mem _ _ (by omega)
  have hlastb : (getAP s.idx (s.idx.length - 1)).body < s.heap.length := h.bounded _ hlast_mem
  have hlast_lvl : (getAP s.idx (s.idx.length - 1)).level = 0 := h.levels _ hlast_mem
  set g := s.heap.length with hg
  set lastB := (getAP s.idx (s.idx.length - 1)).body with hlastB
  have hglast : lastB ≠ g := by omega
  rw [opAppend_eq s nb h0]
  set heap2 := setB (s.heap ++ [nb]) lastB (fun b => { b with next := some g }) with hheap2
  have hlen2 : heap2.length = s.heap.length + 1 := by
    rw [hheap2, setB_length]; simp
  have hgetg : getB heap2 g = nb := by
    rw [hheap2, getB_setB_ne _ _ _ _ (Ne.symm hglast), hg, getB_append_self]
  have hget_old : ∀ b, b < s.heap.length → b ≠ lastB → getB heap2 b = getB s.heap b := by
    intro b hb hne
    rw [hheap2, getB_setB_ne _ _ _ _ hne, getB_append_left _ _ _ hb]
  have hget_last : getB heap2 lastB = { getB s.heap lastB with next := some g } := by
    rw [hheap2, getB_setB_self _ _ _ (by simp; omega), getB_append_left _ _ _ hlastb]
  have hids_lt : ∀ b ∈ s.idx.map AttachPtr.body, b < s.heap.length := by
    intro b hb
    obtain ⟨a', ha', rfl⟩ := List.mem_map.mp hb
    exact h.bounded a' ha'
  have hgnotin : g ∉ s.idx.map AttachPtr.body := by
    intro hmem
    have := hids_lt g hmem
    omega
  -- the old id list decomposed around its final element
  have hmlen : (s.idx.map AttachPtr.body).length = s.idx.length := by simp
  have hidxlt : s.idx.length - 1 < s.idx.length := by omega
  have hdecomp : s.idx.map AttachPtr.body =
      (s.idx.map AttachPtr.body).take (s.idx.length - 1) ++ [lastB] := by
    have hidx : s.idx.length - 1 < (s.idx.map AttachPtr.body).length := by omega
    have hd := list_decomp_at (s.idx.map AttachPtr.body) (s.idx.length - 1) hidx
    rw [List.drop_eq_nil_of_le (by omega)] at hd
    rw [List.getElem_map] at hd
    rw [← getAP_eq _ _ hidxlt] at hd
    exact hd
  have hold := h.linked
  rw [hdecomp, chainSeg_append] at hold
  have htake_no_last : lastB ∉ (s.idx.map AttachPtr.body).take (s.idx.length - 1) := by
    have hnd := h.nodup
    rw [hdecomp, List.nodup_append] at hnd
    intro hmem
    exact hnd.2.2 hmem (by simp)
  have htake_lt : ∀ b ∈ (s.idx.map AttachPtr.body).take (s.idx.length - 1),
      b < s.heap.length := by
    intro b hb
    exact hids_lt b (List.mem_of_mem_take hb)
  constructor
  · simp
  · intro a ha
    rcases List.mem_append.mp ha with h' | h'
    · exact h.levels a h'
    · simp at h'
      subst h'
      simpa using hlast_lvl
  · intro a ha
    rw [hlen2]
    rcases List.mem_append.mp ha with h' | h'
    · have := h.bounded a h'
      omega
    · simp at h'
      subst h'
      simp
  · show ((s.idx ++ [_]).map AttachPtr.body).Nodup
    rw [List.map_append, List.nodup_append]
    exact ⟨h.nodup, by simp, fun x hx hx2 => by
      simp at hx2
      subst hx2
      exact hgnotin hx⟩
  · show chainSeg heap2 ((s.idx ++ [_]).map AttachPtr.body) none
    rw [List.map_append]
    show chainSeg heap2 (s.idx.map AttachPtr.body ++ [g]) none
    rw [chainSeg_append, hdecomp]
    refine ⟨?_, ?_⟩
    · rw [chainSeg_append]
      refine ⟨?_, ?_⟩
      · refine chainSeg_congr s.heap heap2 _ _ ?_ hold.1
        intro b hb
        rw [hget_old b (htake_lt b hb) (fun he => htake_no_last (he ▸ hb))]
      · rw [chainSeg_singleton, hget_last]
    · rw [chainSeg_singleton, hgetg]
      exact hnb
  · show s.root = (getAP (s.idx ++ [_]) 0).body
    rw [getAP_append_left _ _ 0 hlen]
    exact h.rootEq
  · intro a ha
    rcases List.mem_append.mp ha with h' | h'
    · by_cases hb : a.body = lastB
      · rw [hb, hget_last, expandsAsMultipart_set_next]
        have := h.noExpand a h'
        rw [hb] at this
        exact this
      · rw [hget_old a.body (h.bounded a h') hb]
        exact h.noExpand a h'
    · simp at h'
      subst h'
      simpa [hgetg] using hnx

/-! ## C1 preservation: insert-at -/

theorem insertIdx_eq_take_cons_drop {α : Type} (a : α) :
    ∀ (l : List α) (i : Nat), i ≤ l.length →
    l.insertIdx i a = l.take i ++ a :: l.drop i := by
  intro l
  induction l with
  | nil =>
    intro i hi
    have : i = 0 := by simpa using hi
    subst this
    rfl
  | cons x xs ih =>
    intro i hi
    cases i with
    | zero => rfl
    | succ i' =>
      show (x :: xs).insertIdx (i' + 1) a = _
      rw [List.insertIdx_succ_cons, ih i' (by simpa using hi)]
      rfl

theorem take_succ_eq (l : List AttachPtr) (i : Nat) (h : i < l.length) :
    l.take (i + 1) = l.take i ++ [getAP l i] := by
  rw [List.take_succ, getAP_eq l i h]
  simp [List.getElem?_eq_getElem h]

theorem take_succ_eq_ids (l : List Nat) (i : Nat) (h : i < l.length) :
    l.take (i + 1) = l.take i ++ [l[i]] := by
  rw [List.take_succ]
  simp [List.getElem?_eq_getElem h]

set_option maxHeartbeats 1000000 in
theorem opInsert_preserves_flat (s : St) (nb : Body) (aidx : Nat) (h : FlatState s)
    (h1 : 1 ≤ aidx) (h2 : aidx ≤ s.idx.length)
    (hnb : nb.next = none) (hnx : expandsAsMultipart nb = false) :
    FlatState (opInsert s nb aidx) := by
  have h0 := h.nonempty
  have hlen : 0 < s.idx.length := List.length_pos.mpr h0
  have hprev_lt : aidx - 1 < s.idx.length := by omega
  have hprev_mem : getAP s.idx (aidx - 1) ∈ s.idx := getAP_mem _ _ hprev_lt
  have hprevb : (getAP s.idx (aidx - 1)).body < s.heap.length := h.bounded _ hprev_mem
  have hprev_lvl : (getAP s.idx (aidx - 1)).level = 0 := h.levels _ hprev_mem
  set g := s.heap.length with hg
  set prevB := (getAP s.idx (aidx - 1)).body with hprevB
  have hgprev : prevB ≠ g := by omega
  have hids_lt : ∀ b ∈ s.idx.map AttachPtr.body, b < s.heap.length := by
    intro b hb
    obtain ⟨a', ha', rfl⟩ := List.mem_map.mp hb
    exact h.bounded a' ha'
  have hgnotin : g ∉ s.idx.map AttachPtr.body := fun hmem => by
    have := hids_lt g hmem
    omega
  by_cases hcase : aidx < s.idx.length
  · -- insertion strictly inside the array
    have hnext_mem : getAP s.idx aidx ∈ s.idx := getAP_mem _ _ hcase
    have hnext_lvl : (getAP s.idx aidx).level = 0 := h.levels _ hnext_mem
    set nextB := (getAP s.idx aidx).body with hnextB
    have hnextb_lt : nextB < s.heap.length := h.bounded _ hnext_mem
    have hgnext : nextB ≠ g := by omega
    have hmain : opInsert s nb aidx =
        { heap := setB (setB (s.heap ++ [nb]) prevB (fun b => { b with next := some g })) g
            (fun b => { b with next := some nextB }),
          root := s.root,
          idx := s.idx.insertIdx aidx { body := g },
          cur := aidx } := by
      unfold opInsert insert_idx mutt_actx_ins_attach
      split_ifs with hA hB hB
      · rfl
      · exact absurd ⟨hcase, by simpa using hnext_lvl.symm⟩ hB
      · exact absurd ⟨by omega, by simpa using hprev_lvl.symm⟩ hA
      · exact absurd ⟨by omega, by simpa using hprev_lvl.symm⟩ hA
    rw [hmain]
    set heap2 := setB (setB (s.heap ++ [nb]) prevB (fun b => { b with next := some g })) g
      (fun b => { b with next := some nextB }) with hheap2
    have hlen2 : heap2.length = s.heap.length + 1 := by
      rw [hheap2, setB_length, setB_length]; simp
    have hgetg : getB heap2 g = { nb with next := some nextB } := by
      rw [hheap2, getB_setB_self _ _ _ (by rw [setB_length]; simp),
        getB_setB_ne _ _ _ _ (Ne.symm hgprev), hg, getB_append_self]
    have hget_prev : getB heap2 prevB = { getB s.heap prevB with next := some g } := by
      rw [hheap2, getB_setB_ne _ _ _ _ hgprev,
        getB_setB_self _ _ _ (by simp; omega), getB_append_left _ _ _ hprevb]
    have hget_old : ∀ b, b < s.heap.length → b ≠ prevB → getB heap2 b = getB s.heap b := by
      intro b hb hne
      rw [hheap2, getB_setB_ne _ _ _ _ (by omega), getB_setB_ne _ _ _ _ hne,
        getB_append_left _ _ _ hb]
    -- decompositions of the id list
    have hmlen : (s.idx.map AttachPtr.body).length = s.idx.length := by simp
    have hbp : aidx - 1 < (s.idx.map AttachPtr.body).length := by omega
    have hbn : aidx < (s.idx.map AttachPtr.body).length := by omega
    have hidp : (s.idx.map AttachPtr.body)[aidx - 1] = prevB := by
      rw [List.getElem_map, ← getAP_eq _ _ hprev_lt]
    have hidn : (s.idx.map AttachPtr.body)[aidx] = nextB := by
      rw [List.getElem_map, ← getAP_eq _ _ hcase]
    have hids' : (s.idx.insertIdx aidx ({ body := g } : AttachPtr)).map AttachPtr.body =
        (s.idx.map AttachPtr.body).take aidx ++ g :: (s.idx.map AttachPtr.body).drop aidx := by
      rw [insertIdx_eq_take_cons_drop _ s.idx aidx h2]
      simp [List.map_append, List.map_take, List.map_drop]
    have htake_decomp : (s.idx.map AttachPtr.body).take aidx =
        (s.idx.map AttachPtr.body).take (aidx - 1) ++ [prevB] := by
      have ha : aidx - 1 + 1 = aidx := by omega
      conv_lhs => rw [← ha]
      rw [take_succ_eq_ids _ _ (by omega), hidp]
    have hdrop_decomp : (s.idx.map AttachPtr.body).drop aidx =
        nextB :: (s.idx.map AttachPtr.body).drop (aidx + 1) := by
      rw [List.drop_eq_getElem_cons (by omega : aidx < (s.idx.map AttachPtr.body).length)]
      rw [hidn]
    have hsplit : s.idx.map AttachPtr.body =
        (s.idx.map AttachPtr.body).take aidx ++ nextB ::
          (s.idx.map AttachPtr.body).drop (aidx + 1) := by
      conv_lhs => rw [← List.take_append_drop aidx (s.idx.map AttachPtr.body)]
      rw [hdrop_decomp]
    have hold := h.linked
    rw [hsplit, chainSeg_append] at hold
    have hnd := h.nodup
    rw [hsplit, List.nodup_append] at hnd
    have htake_lt : ∀ b ∈ (s.idx.map AttachPtr.body).take aidx, b < s.heap.length :=
      fun b hb => hids_lt b (List.mem_of_mem_take hb)
    have hprev_not_take : prevB ∉ (s.idx.map AttachPtr.body).take (aidx - 1) := by
      intro hmem
      have hndt : ((s.idx.map AttachPtr.body).take aidx).Nodup := hnd.1
      rw [htake_decomp, List.nodup_append] at hndt
      exact hndt.2.2 hmem (by simp)
    have hprev_not_drop : prevB ∉ nextB :: (s.idx.map AttachPtr.body).drop (aidx + 1) := by
      intro hmem
      exact hnd.2.2 (htake_decomp ▸ List.mem_append.mpr (Or.inr (by simp))) hmem
    constructor
    · show ¬ s.idx.insertIdx aidx ({ body := g } : AttachPtr) = []
      rw [insertIdx_eq_take_cons_drop _ s.idx aidx h2]
      simp
    · intro a ha
      rw [insertIdx_eq_take_cons_drop _ s.idx aidx h2] at ha
      rcases List.mem_append.mp ha with h' | h'
      · exact h.levels a (List.mem_of_mem_take h')
      · rcases List.mem_cons.mp h' with h'' | h''
        · subst h''; rfl
        · exact h.levels a (List.mem_of_mem_drop h'')
    · intro a ha
      rw [hlen2]
      rw [insertIdx_eq_take_cons_drop _ s.idx aidx h2] at ha
      rcases List.mem_append.mp ha with h' | h'
      · have := h.bounded a (List.mem_of_mem_take h')
        omega
      · rcases List.mem_cons.mp h' with h'' | h''
        · subst h''; simp [hg]
        · have := h.bounded a (List.mem_of_mem_drop h'')
          omega
    · show ((s.idx.insertIdx aidx ({ body := g } : AttachPtr)).map AttachPtr.body).Nodup
      rw [hids', List.nodup_append]
      have hnd0 := h.nodup
      conv at hnd0 => rw [← List.take_append_drop aidx (s.idx.map AttachPtr.body)]
      rw [List.nodup_append] at hnd0
      refine ⟨hnd0.1, ?_, ?_⟩
      · rw [List.nodup_cons]
        refine ⟨fun hmem => hgnotin (List.mem_of_mem_drop hmem), hnd0.2.1⟩
      · intro x hx hx2
        rcases List.mem_cons.mp hx2 with h'' | h''
        · subst h''
          exact hgnotin (List.mem_of_mem_take hx)
        · exact hnd0.2.2 hx h''
    · show chainSeg heap2 ((s.idx.insertIdx aidx ({ body := g } : AttachPtr)).map
        AttachPtr.body) none
      rw [hids', hdrop_decomp, chainSeg_append]
      constructor
      · rw [htake_decomp, chainSeg_append]
        constructor
        · have holdt := hold.1
          rw [htake_decomp, chainSeg_append] at holdt
          refine chainSeg_congr s.heap heap2 _ _ ?_ holdt.1
          intro b hb
          have hblt : b < s.heap.length :=
            htake_lt b (htake_decomp ▸ List.mem_append.mpr (Or.inl hb))
          exact congrArg Body.next (hget_old b hblt (fun he => hprev_not_take (he ▸ hb)))
        · rw [chainSeg_singleton, hget_prev]
      · refine ⟨?_, ?_⟩
        · show (getB heap2 g).next = some nextB
          rw [hgetg]
        · show chainSeg heap2 (nextB :: (s.idx.map AttachPtr.body).drop (aidx + 1)) none
          refine chainSeg_congr s.heap heap2 _ _ ?_ hold.2
          intro b hb
          have hbmem : b ∈ s.idx.map AttachPtr.body := by
            rw [hsplit]
            exact List.mem_append.mpr (Or.inr hb)
          exact congrArg Body.next
            (hget_old b (hids_lt b hbmem) (fun he => hprev_not_drop (he ▸ hb)))
    · show s.root = (getAP (s.idx.insertIdx aidx ({ body := g } : AttachPtr)) 0).body
      rw [h.rootEq]
      congr 1
      rw [insertIdx_eq_take_cons_drop _ s.idx aidx h2]
      have hlt0 : (0 : Nat) < (s.idx.take aidx ++
          ({ body := g } : AttachPtr) :: s.idx.drop aidx).length := by
        simp
      rw [getAP_eq _ 0 hlt0, getAP_eq _ 0 hlen]
      rw [List.getElem_append_left (by rw [List.length_take]; omega)]
      exact (List.getElem_take s.idx).symm
    · intro a ha
      rw [insertIdx_eq_take_cons_drop _ s.idx aidx h2] at ha
      have hmem_cases : a ∈ s.idx ∨ a = ({ body := g } : AttachPtr) := by
        rcases List.mem_append.mp ha with h' | h'
        · exact Or.inl (List.mem_of_mem_take h')
        · rcases List.mem_cons.mp h' with h'' | h''
          · exact Or.inr h''
          · exact Or.inl (List.mem_of_mem_drop h'')
      rcases hmem_cases with h' | h'
      · by_cases hb : a.body = prevB
        · rw [hb, hget_prev, expandsAsMultipart_set_next]
          have := h.noExpand a h'
          rw [hb] at this
          exact this
        · rw [hget_old a.body (h.bounded a h') hb]
          exact h.noExpand a h'
      · subst h'
        show expandsAsMultipart (getB heap2 g) = false
        rw [hgetg, expandsAsMultipart_set_next]
        exact hnx
  · -- insertion at the very end: `insertIdx length = append`
    have haidx : aidx = s.idx.length := by omega
    have hmain : opInsert s nb aidx =
        { heap := setB (s.heap ++ [nb]) prevB (fun b => { b with next := some g }),
          root := s.root,
          idx := s.idx ++ [{ body := g }],
          cur := aidx } := by
      unfold opInsert insert_idx mutt_actx_ins_attach
      split_ifs with hA hB hB
      · exact absurd hB.1 hcase
      · have hpb : prevB = (getAP s.idx (s.idx.length - 1)).body := by rw [hprevB, haidx]
        rw [insertIdx_eq_take_cons_drop _ s.idx aidx h2, haidx, hpb]
        simp
      · exact absurd ⟨by omega, by simpa using hprev_lvl.symm⟩ hA
      · exact absurd ⟨by omega, by simpa using hprev_lvl.symm⟩ hA
    rw [hmain]
    have happ := opAppend_preserves_flat s nb h hnb hnx
    rw [opAppend_eq s nb h0] at happ
    have hl0 : (getAP s.idx (s.idx.length - 1)).level = 0 := by
      rw [← haidx]
      exact hprev_lvl
    have hstate :
        ({ heap := setB (s.heap ++ [nb]) prevB (fun b => { b with next := some g }),
           root := s.root, idx := s.idx ++ [{ body := g }], cur := aidx } : St) =
        ({ heap := setB (s.heap ++ [nb]) (getAP s.idx (s.idx.length - 1)).body
             (fun b => { b with next := some s.heap.length }),
           root := s.root,
           idx := s.idx ++ [{ body := s.heap.length, level := (getAP s.idx (s.idx.length - 1)).level }],
           cur := s.idx.length } : St) := by
      rw [hprevB, haidx, hl0]
    rw [hstate]
    exact happ

/-! ## C1 preservation: swap-adjacent -/

theorem findPred_spec (heap : List Body) :
    ∀ (l : List Nat) (fuel i : Nat) (hl : i + 1 < l.length),
    chainSeg heap l none →
    l.length ≤ fuel →
    l.Nodup →
    findPred heap fuel l.head? (l[i + 1]) = some l[i] := by
  intro l
  induction l with
  | nil => intro fuel i hl; simp at hl
  | cons b rest ih =>
    intro fuel i hl hchain hfuel hnd
    have hrest_ne : rest ≠ [] := by
      intro he
      rw [he] at hl
      simp at hl
    obtain ⟨c, rest', rfl⟩ : ∃ c rest', rest = c :: rest' := by
      cases rest with
      | nil => exact absurd rfl hrest_ne
      | cons c rest' => exact ⟨c, rest', rfl⟩
    have hb : (getB heap b).next = some c := by
      have := hchain.1
      simpa using this
    cases fuel with
    | zero => simp at hfuel
    | succ fuel =>
      show findPred heap (fuel + 1) (some b) _ = _
      cases i with
      | zero =>
        have hcond : (getB heap b).next = some ((b :: c :: rest')[0 + 1]) := by
          rw [hb]
          simp
        unfold findPred
        rw [if_pos hcond]
        simp
      | succ i' =>
        have hl2 : i' + 1 < (c :: rest').length := by simpa using hl
        have hne : c ≠ (c :: rest')[i' + 1] := by
          have hnd' : (c :: rest').Nodup := hnd.of_cons
          intro he
          have h0 : (c :: rest')[0] = (c :: rest')[i' + 1] := he
          have h01 : (0 : Nat) = i' + 1 :=
            (List.Nodup.getElem_inj_iff hnd').mp h0
          omega
        unfold findPred
        rw [if_neg (by
          rw [hb]
          intro he
          apply hne
          have hsome : some c = some ((b :: c :: rest')[i' + 1 + 1]) := he
          have hcast : (b :: c :: rest')[i' + 1 + 1] = (c :: rest')[i' + 1] := by
            simp
          rw [hcast] at hsome
          exact Option.some.inj hsome)]
        rw [hb]
        have hih := ih fuel i' hl2 hchain.2 (by simpa using hfuel) hnd.of_cons
        simp only [List.head?_cons] at hih
        rw [show ((b :: c :: rest')[i' + 1 + 1]) = ((c :: rest')[i' + 1]) from by simp]
        rw [hih]
        simp

theorem set_set_adjacent (e1 e2 : AttachPtr) :
    ∀ (l : List AttachPtr) (i : Nat), i + 1 < l.length →
    (l.set i e1).set (i + 1) e2 = l.take i ++ e1 :: e2 :: l.drop (i + 2) := by
  intro l
  induction l with
  | nil => intro i hi; simp at hi
  | cons z l ih =>
    intro i hi
    cases i with
    | zero =>
      cases l with
      | nil => simp at hi
      | cons w l' => rfl
    | succ i' =>
      show z :: (l.set i' e1).set (i' + 1) e2 = z :: (l.take i' ++ e1 :: e2 :: l.drop (i' + 2))
      rw [ih i' (by simpa using hi)]

set_option maxHeartbeats 1000000 in
theorem compose_attach_swap_preserves_flat (s : St) (h : FlatState s) (first : Nat)
    (hf1 : 1 ≤ first) (hflt : first + 1 < s.idx.length) :
    FlatState (compose_attach_swap s first) := by
  have h0 := h.nonempty
  have hlen : 0 < s.idx.length := List.length_pos.mpr h0
  have hmlen : (s.idx.map AttachPtr.body).length = s.idx.length := by simp
  have hb1 : first - 1 < (s.idx.map AttachPtr.body).length := by omega
  have hb2 : first < (s.idx.map AttachPtr.body).length := by omega
  have hb3 : first + 1 < (s.idx.map AttachPtr.body).length := by omega
  have hids_lt : ∀ b ∈ s.idx.map AttachPtr.body, b < s.heap.length := by
    intro b hb
    obtain ⟨a, ha, rfl⟩ := List.mem_map.mp hb
    exact h.bounded a ha
  obtain ⟨p, hpdef⟩ : ∃ v, v = (getAP s.idx (first - 1)).body := ⟨_, rfl⟩
  obtain ⟨x, hxdef⟩ : ∃ v, v = (getAP s.idx first).body := ⟨_, rfl⟩
  obtain ⟨y, hydef⟩ : ∃ v, v = (getAP s.idx (first + 1)).body := ⟨_, rfl⟩
  obtain ⟨eY, heY⟩ : ∃ v, v =
      ({ body := (getAP s.idx (first + 1)).body, level := (getAP s.idx (first + 1)).level,
         num := (getAP s.idx first).num, unowned := (getAP s.idx (first + 1)).unowned } :
        AttachPtr) :=
    ⟨_, rfl⟩
  obtain ⟨eX, heX⟩ : ∃ v, v =
      ({ body := (getAP s.idx first).body, level := (getAP s.idx first).level,
         num := (getAP s.idx (first + 1)).num, unowned := (getAP s.idx first).unowned } :
        AttachPtr) :=
    ⟨_, rfl⟩
  have heYb : eY.body = y := by
    rw [heY]
    exact hydef.symm
  have heXb : eX.body = x := by
    rw [heX]
    exact hxdef.symm
  have heYl : eY.level = (getAP s.idx (first + 1)).level := by rw [heY]
  have heXl : eX.level = (getAP s.idx first).level := by rw [heX]
  have hidsp : (s.idx.map AttachPtr.body)[first - 1] = p := by
    rw [hpdef, getAP_eq _ _ (by omega : first - 1 < s.idx.length)]
    exact List.getElem_map AttachPtr.body
  have hidsf : (s.idx.map AttachPtr.body)[first] = x := by
    rw [hxdef, getAP_eq _ _ (by omega : first < s.idx.length)]
    exact List.getElem_map AttachPtr.body
  have hidsf1 : (s.idx.map AttachPtr.body)[first + 1] = y := by
    rw [hydef, getAP_eq _ _ (by omega : first + 1 < s.idx.length)]
    exact List.getElem_map AttachPtr.body
  have hpmem : p ∈ s.idx.map AttachPtr.body := by
    have : (s.idx.map AttachPtr.body)[first - 1] ∈ s.idx.map AttachPtr.body :=
      List.getElem_mem _
    rwa [hidsp] at this
  have hxmem : x ∈ s.idx.map AttachPtr.body := by
    have : (s.idx.map AttachPtr.body)[first] ∈ s.idx.map AttachPtr.body :=
      List.getElem_mem _
    rwa [hidsf] at this
  have hymem : y ∈ s.idx.map AttachPtr.body := by
    have : (s.idx.map AttachPtr.body)[first + 1] ∈ s.idx.map AttachPtr.body :=
      List.getElem_mem _
    rwa [hidsf1] at this
  have hplt := hids_lt p hpmem
  have hxlt := hids_lt x hxmem
  have hylt := hids_lt y hymem
  have hpx : p ≠ x := by
    intro he
    have he2 : (s.idx.map AttachPtr.body)[first - 1] =
        (s.idx.map AttachPtr.body)[first] :=
      hidsp.trans (he.trans hidsf.symm)
    have : first - 1 = first := (List.Nodup.getElem_inj_iff h.nodup).mp he2
    omega
  have hpy : p ≠ y := by
    intro he
    have he2 : (s.idx.map AttachPtr.body)[first - 1] =
        (s.idx.map AttachPtr.body)[first + 1] :=
      hidsp.trans (he.trans hidsf1.symm)
    have : first - 1 = first + 1 := (List.Nodup.getElem_inj_iff h.nodup).mp he2
    omega
  have hxy : x ≠ y := by
    intro he
    have he2 : (s.idx.map AttachPtr.body)[first] =
        (s.idx.map AttachPtr.body)[first + 1] :=
      hidsf.trans (he.trans hidsf1.symm)
    have : first = first + 1 := (List.Nodup.getElem_inj_iff h.nodup).mp he2
    omega
  -- decompositions of the id list around positions first-1 .. first+1
  have hs1 : first - 1 + 1 = first := by omega
  have hdrop3 : (s.idx.map AttachPtr.body).drop (first + 1) =
      y :: (s.idx.map AttachPtr.body).drop (first + 2) := by
    rw [List.drop_eq_getElem_cons (by omega : first + 1 < (s.idx.map AttachPtr.body).length),
      hidsf1]
  have hdrop2 : (s.idx.map AttachPtr.body).drop first =
      x :: y :: (s.idx.map AttachPtr.body).drop (first + 2) := by
    rw [List.drop_eq_getElem_cons (by omega : first < (s.idx.map AttachPtr.body).length),
      hidsf, hdrop3]
  have hdrop1 : (s.idx.map AttachPtr.body).drop (first - 1) =
      p :: x :: y :: (s.idx.map AttachPtr.body).drop (first + 2) := by
    rw [List.drop_eq_getElem_cons (by omega : first - 1 < (s.idx.map AttachPtr.body).length),
      hidsp, hs1, hdrop2]
  have hdec : s.idx.map AttachPtr.body =
      (s.idx.map AttachPtr.body).take (first - 1) ++
        p :: x :: y :: (s.idx.map AttachPtr.body).drop (first + 2) := by
    conv_lhs => rw [← List.take_append_drop (first - 1) (s.idx.map AttachPtr.body)]
    rw [hdrop1]
  -- the old chain structure
  have hold := h.linked
  rw [hdec, chainSeg_append] at hold
  have holdT := hold.1
  have holdY : (getB s.heap y).next =
      (((s.idx.map AttachPtr.body).drop (first + 2)).head?.orElse (fun _ => none)) := by
    simpa using hold.2.2.2.1
  have holdR : chainSeg s.heap ((s.idx.map AttachPtr.body).drop (first + 2)) none :=
    hold.2.2.2.2
  -- nodup pieces
  have hnd := h.nodup
  rw [hdec, List.nodup_append] at hnd
  have hp_notT : p ∉ (s.idx.map AttachPtr.body).take (first - 1) :=
    fun hm => hnd.2.2 hm (by simp)
  have hx_notT : x ∉ (s.idx.map AttachPtr.body).take (first - 1) :=
    fun hm => hnd.2.2 hm (by simp)
  have hy_notT : y ∉ (s.idx.map AttachPtr.body).take (first - 1) :=
    fun hm => hnd.2.2 hm (by simp)
  have hndC := hnd.2.1
  have hndC1 := List.nodup_cons.mp hndC
  have hndC2 := List.nodup_cons.mp hndC1.2
  have hndC3 := List.nodup_cons.mp hndC2.2
  have hp_notR : p ∉ (s.idx.map AttachPtr.body).drop (first + 2) := by
    have := hndC1.1
    simp at this
    exact this.2.2
  have hx_notR : x ∉ (s.idx.map AttachPtr.body).drop (first + 2) := by
    have := hndC2.1
    simp at this
    exact this.2
  have hy_notR : y ∉ (s.idx.map AttachPtr.body).drop (first + 2) := hndC3.1
  -- the predecessor walk finds p
  have hfp : findPred s.heap (s.heap.length + 1) (some s.root) ((getAP s.idx first).body) =
      some p := by
    have hpred := findPred_spec s.heap (s.idx.map AttachPtr.body) (s.heap.length + 1)
      (first - 1) (by omega) h.linked
      (by have := nodup_bounded_length (s.idx.map AttachPtr.body) s.heap.length h.nodup hids_lt
          omega)
      h.nodup
    simp only [hs1] at hpred
    have hhead : (s.idx.map AttachPtr.body).head? = some s.root := by
      obtain ⟨a0, t0, ht0⟩ : ∃ a0 t0, s.idx = a0 :: t0 := by
        cases hh : s.idx with
        | nil => exact absurd hh h0
        | cons a0 t0 => exact ⟨a0, t0, rfl⟩
      rw [h.rootEq, ht0]
      rfl
    rw [hhead, hidsp, hidsf] at hpred
    rw [← hxdef]
    exact hpred
  -- the swap, written out
  have hswap : compose_attach_swap s first =
      { s with
        heap := setB (setB (setB s.heap x (fun b => { b with next := (getB s.heap y).next }))
          y (fun b => { b with next := some x })) p (fun b => { b with next := some y }),
        idx := (s.idx.set first eY).set (first + 1) eX } := by
    simp only [compose_attach_swap]
    rw [hfp]
    rw [← heY, ← heX, ← hxdef, ← hydef]
  rw [hswap]
  show FlatState
    { heap := setB (setB (setB s.heap x (fun b => { b with next := (getB s.heap y).next }))
        y (fun b => { b with next := some x })) p (fun b => { b with next := some y }),
      root := s.root,
      idx := (s.idx.set first eY).set (first + 1) eX,
      cur := s.cur }
  have hlen3 : (setB (setB (setB s.heap x (fun b => { b with next := (getB s.heap y).next }))
      y (fun b => { b with next := some x })) p
        (fun b => { b with next := some y })).length = s.heap.length := by
    rw [setB_length, setB_length, setB_length]
  have hget_p : getB (setB (setB (setB s.heap x
      (fun b => { b with next := (getB s.heap y).next })) y (fun b => { b with next := some x }))
        p (fun b => { b with next := some y })) p = { getB s.heap p with next := some y } := by
    rw [getB_setB_self _ _ _ (by rw [setB_length, setB_length]; omega),
      getB_setB_ne _ _ _ _ hpy, getB_setB_ne _ _ _ _ hpx]
  have hget_y : getB (setB (setB (setB s.heap x
      (fun b => { b with next := (getB s.heap y).next })) y (fun b => { b with next := some x }))
        p (fun b => { b with next := some y })) y = { getB s.heap y with next := some x } := by
    rw [getB_setB_ne _ _ _ _ (Ne.symm hpy),
      getB_setB_self _ _ _ (by rw [setB_length]; omega), getB_setB_ne _ _ _ _ (Ne.symm hxy)]
  have hget_x : getB (setB (setB (setB s.heap x
      (fun b => { b with next := (getB s.heap y).next })) y (fun b => { b with next := some x }))
        p (fun b => { b with next := some y })) x =
      { getB s.heap x with next := (getB s.heap y).next } := by
    rw [getB_setB_ne _ _ _ _ (Ne.symm hpx), getB_setB_ne _ _ _ _ hxy,
      getB_setB_self _ _ _ hxlt]
  have hget_old : ∀ b, b ≠ p → b ≠ x → b ≠ y → getB (setB (setB (setB s.heap x
      (fun b => { b with next := (getB s.heap y).next })) y (fun b => { b with next := some x }))
        p (fun b => { b with next := some y })) b = getB s.heap b := by
    intro b hbp hbx hby
    rw [getB_setB_ne _ _ _ _ hbp, getB_setB_ne _ _ _ _ hby, getB_setB_ne _ _ _ _ hbx]
  -- the new flat array and its ids
  have hidx2 : (s.idx.set first eY).set (first + 1) eX =
      s.idx.take first ++ eY :: eX :: s.idx.drop (first + 2) :=
    set_set_adjacent _ _ s.idx first hflt
  have hids2 : ((s.idx.set first eY).set (first + 1) eX).map AttachPtr.body =
      (s.idx.map AttachPtr.body).take first ++
        y :: x :: (s.idx.map AttachPtr.body).drop (first + 2) := by
    rw [hidx2]
    simp only [List.map_append, List.map_cons]
    rw [List.map_take, List.map_drop, heYb, heXb]
  have htake_first : (s.idx.map AttachPtr.body).take first =
      (s.idx.map AttachPtr.body).take (first - 1) ++ [p] := by
    conv_lhs => rw [← hs1]
    rw [take_succ_eq_ids _ _ (by omega), hidsp]
  have hmem_cases : ∀ a, a ∈ (s.idx.set first eY).set (first + 1) eX →
      a ∈ s.idx ∨ a = eY ∨ a = eX := by
    intro a ha
    rw [hidx2] at ha
    rcases List.mem_append.mp ha with hm | hm
    · exact Or.inl (List.mem_of_mem_take hm)
    · rcases List.mem_cons.mp hm with hm2 | hm2
      · exact Or.inr (Or.inl hm2)
      · rcases List.mem_cons.mp hm2 with hm3 | hm3
        · exact Or.inr (Or.inr hm3)
        · exact Or.inl (List.mem_of_mem_drop hm3)
  constructor
  · show (s.idx.set first eY).set (first + 1) eX ≠ []
    intro he
    have hlen2 := congrArg List.length he
    simp at hlen2
    exact h0 hlen2
  · show ∀ a ∈ (s.idx.set first eY).set (first + 1) eX, a.level = 0
    intro a ha
    rcases hmem_cases a ha with hm | hm | hm
    · exact h.levels a hm
    · rw [hm, heYl]
      exact h.levels _ (getAP_mem s.idx (first + 1) (by omega))
    · rw [hm, heXl]
      exact h.levels _ (getAP_mem s.idx first (by omega))
  · show ∀ a ∈ (s.idx.set first eY).set (first + 1) eX, a.body <
      (setB (setB (setB s.heap x (fun b => { b with next := (getB s.heap y).next }))
        y (fun b => { b with next := some x })) p (fun b => { b with next := some y })).length
    intro a ha
    rw [hlen3]
    rcases hmem_cases a ha with hm | hm | hm
    · exact h.bounded a hm
    · rw [hm, heYb]
      exact hylt
    · rw [hm, heXb]
      exact hxlt
  · show (((s.idx.set first eY).set (first + 1) eX).map AttachPtr.body).Nodup
    rw [hids2]
    have hperm : ((s.idx.map AttachPtr.body).take first ++
        y :: x :: (s.idx.map AttachPtr.body).drop (first + 2)).Perm (s.idx.map AttachPtr.body) := by
      conv_rhs => rw [hdec]
      rw [htake_first]
      have h1 : ((s.idx.map AttachPtr.body).take (first - 1) ++ [p]) ++
          y :: x :: (s.idx.map AttachPtr.body).drop (first + 2) =
          (s.idx.map AttachPtr.body).take (first - 1) ++
            (p :: y :: x :: (s.idx.map AttachPtr.body).drop (first + 2)) := by simp
      rw [h1]
      exact List.Perm.append_left _ ((List.Perm.swap x y _).cons p)
    exact hperm.symm.nodup h.nodup
  · show chainSeg (setB (setB (setB s.heap x
      (fun b => { b with next := (getB s.heap y).next })) y (fun b => { b with next := some x }))
        p (fun b => { b with next := some y }))
      (((s.idx.set first eY).set (first + 1) eX).map AttachPtr.body) none
    rw [hids2, htake_first]
    have hassoc : (((s.idx.map AttachPtr.body)).take (first - 1) ++ [p]) ++
        y :: x :: (s.idx.map AttachPtr.body).drop (first + 2) =
        (s.idx.map AttachPtr.body).take (first - 1) ++
          p :: y :: x :: (s.idx.map AttachPtr.body).drop (first + 2) := by simp
    rw [hassoc, chainSeg_append]
    constructor
    · refine chainSeg_congr s.heap _ _ _ ?_ holdT
      intro b hb
      exact congrArg Body.next (hget_old b (fun he => hp_notT (he ▸ hb))
        (fun he => hx_notT (he ▸ hb)) (fun he => hy_notT (he ▸ hb)))
    · refine ⟨?_, ?_, ?_, ?_⟩
      · show (getB (setB (setB (setB s.heap x
          (fun b => { b with next := (getB s.heap y).next })) y
            (fun b => { b with next := some x })) p (fun b => { b with next := some y })) p).next =
          some y
        rw [hget_p]
      · show (getB (setB (setB (setB s.heap x
          (fun b => { b with next := (getB s.heap y).next })) y
            (fun b => { b with next := some x })) p (fun b => { b with next := some y })) y).next =
          some x
        rw [hget_y]
      · show (getB (setB (setB (setB s.heap x
          (fun b => { b with next := (getB s.heap y).next })) y
            (fun b => { b with next := some x })) p (fun b => { b with next := some y })) x).next =
          (((s.idx.map AttachPtr.body).drop (first + 2)).head?.orElse (fun _ => none))
        rw [hget_x]
        exact holdY
      · refine chainSeg_congr s.heap _ _ _ ?_ holdR
        intro b hb
        exact congrArg Body.next (hget_old b (fun he => hp_notR (he ▸ hb))
          (fun he => hx_notR (he ▸ hb)) (fun he => hy_notR (he ▸ hb)))
  · show s.root = (getAP ((s.idx.set first eY).set (first + 1) eX) 0).body
    have hsetlen : ((s.idx.set first eY).set (first + 1) eX).length = s.idx.length := by simp
    have hg : getAP ((s.idx.set first eY).set (first + 1) eX) 0 = getAP s.idx 0 := by
      rw [getAP_eq _ 0 (by omega : 0 < ((s.idx.set first eY).set (first + 1) eX).length),
        getAP_eq _ 0 hlen]
      rw [List.getElem_set_ne (by omega), List.getElem_set_ne (by omega)]
    rw [hg]
    exact h.rootEq
  · show ∀ a ∈ (s.idx.set first eY).set (first + 1) eX,
      expandsAsMultipart (getB (setB (setB (setB s.heap x
        (fun b => { b with next := (getB s.heap y).next })) y
          (fun b => { b with next := some x })) p (fun b => { b with next := some y })) a.body)
        = false
    intro a ha
    have hnoexp : ∀ b, expandsAsMultipart (getB s.heap b) = false →
        expandsAsMultipart (getB (setB (setB (setB s.heap x
          (fun b => { b with next := (getB s.heap y).next })) y
            (fun b => { b with next := some x })) p (fun b => { b with next := some y })) b)
          = false := by
      intro b hb
      by_cases hbp : b = p
      · subst hbp; rw [hget_p, expandsAsMultipart_set_next]; exact hb
      · by_cases hbx : b = x
        · subst hbx; rw [hget_x, expandsAsMultipart_set_next]; exact hb
        · by_cases hby : b = y
          · subst hby; rw [hget_y, expandsAsMultipart_set_next]; exact hb
          · rw [hget_old b hbp hbx hby]; exact hb
    rcases hmem_cases a ha with hm | hm | hm
    · exact hnoexp a.body (h.noExpand a hm)
    · rw [hm, heYb]
      have := hnoexp y (by
        have := h.noExpand _ (getAP_mem s.idx (first + 1) (by omega))
        rwa [← hydef] at this)
      exact this
    · rw [hm, heXb]
      have := hnoexp x (by
        have := h.noExpand _ (getAP_mem s.idx first (by omega))
        rwa [← hxdef] at this)
      exact this

theorem flatState_cur (t : St) (c : Nat) (h : FlatState t) : FlatState { t with cur := c } :=
  ⟨h.nonempty, h.levels, h.bounded, h.nodup, h.linked, h.rootEq, h.noExpand⟩

theorem opMoveUp_preserves_flat (s : St) (h : FlatState s)
    (hc : 2 ≤ s.cur) (hlt : s.cur < s.idx.length) :
    FlatState (opMoveUp s).1 := by
  have hs := compose_attach_swap_preserves_flat s h (s.cur - 1) (by omega) (by omega)
  unfold opMoveUp
  rw [if_neg (by omega : ¬s.cur = 0), if_neg (by omega : ¬s.cur = 1)]
  exact flatState_cur _ _ hs

theorem opMoveDown_preserves_flat (s : St) (h : FlatState s)
    (hc : 1 ≤ s.cur) (hlt : s.cur + 1 < s.idx.length) :
    FlatState (opMoveDown s).1 := by
  have hs := compose_attach_swap_preserves_flat s h s.cur (by omega) (by omega)
  unfold opMoveDown
  rw [if_neg (by
      intro he
      omega : ¬((s.cur : Int) = (s.idx.length : Int) - 1)), if_neg (by omega : ¬s.cur = 0)]
  exact flatState_cur _ _ hs

theorem flatState_heap_congr (t : St) (heap2 : List Body)
    (hlen : heap2.length = t.heap.length)
    (hnext : ∀ a ∈ t.idx, (getB heap2 a.body).next = (getB t.heap a.body).next)
    (hexp : ∀ a ∈ t.idx, expandsAsMultipart (getB heap2 a.body) =
      expandsAsMultipart (getB t.heap a.body))
    (h : FlatState t) : FlatState { t with heap := heap2 } := by
  refine ⟨h.nonempty, h.levels, ?_, h.nodup, ?_, h.rootEq, ?_⟩
  · intro a ha
    show a.body < heap2.length
    rw [hlen]
    exact h.bounded a ha
  · show chainSeg heap2 (t.idx.map AttachPtr.body) none
    refine chainSeg_congr t.heap heap2 _ _ ?_ h.linked
    intro b hb
    obtain ⟨a, ha, rfl⟩ := List.mem_map.mp hb
    exact hnext a ha
  · intro a ha
    show expandsAsMultipart (getB heap2 a.body) = false
    rw [hexp a ha]
    exact h.noExpand a ha

theorem flatState_setB_inert (t : St) (B : Nat) (f : Body → Body) (hB : B < t.heap.length)
    (hnext : ∀ b, (f b).next = b.next)
    (hexp : ∀ b, expandsAsMultipart (f b) = expandsAsMultipart b)
    (h : FlatState t) : FlatState { t with heap := setB t.heap B f } := by
  refine flatState_heap_congr t _ (setB_length t.heap B f) ?_ ?_ h
  · intro a _
    by_cases hc : a.body = B
    · rw [hc, getB_setB_self t.heap B f hB, hnext]
    · rw [getB_setB_ne t.heap B f a.body hc]
  · intro a _
    by_cases hc : a.body = B
    · rw [hc, getB_setB_self t.heap B f hB, hexp]
    · rw [getB_setB_ne t.heap B f a.body hc]

theorem chainSeg_next_ne (heap : List Body) (v : Nat) :
    ∀ (l : List Nat) (stop : Option Nat), chainSeg heap l stop →
    v ∉ l.drop 1 → stop ≠ some v →
    ∀ b ∈ l, (getB heap b).next ≠ some v := by
  intro l
  induction l with
  | nil =>
    intro stop _ _ _ b hb
    simp at hb
  | cons a rest ih =>
    intro stop hc hvt hvs b hb
    have hvrest : v ∉ rest := by
      intro hv
      apply hvt
      simpa using hv
    rcases List.mem_cons.mp hb with rfl | hb2
    · rw [hc.1]
      cases rest with
      | nil => simpa using hvs
      | cons c rest2 =>
        simp only [List.head?_cons]
        intro he
        have hcv : c = v := by simpa using he
        exact hvrest (by rw [hcv]; exact List.mem_cons_self v rest2)
    · refine ih stop hc.2 ?_ hvs b hb2
      intro hv
      exact hvrest (List.mem_of_mem_drop hv)

theorem findY_chain_aux (heap : List Body) (target : Nat) :
    ∀ (l : List AttachPtr) (i j : Nat) (hj : j + 1 < (l.map AttachPtr.body).length),
    target = (l.map AttachPtr.body)[j + 1] →
    chainSeg heap (l.map AttachPtr.body) none →
    (l.map AttachPtr.body).Nodup →
    List.findIdx? (fun a => (getB heap a.body).next == some target) l i = some (i + j) := by
  intro l
  induction l with
  | nil =>
    intro i j hj
    simp at hj
  | cons a rest ih =>
    intro i j hj htg hc hnd
    cases rest with
    | nil => simp at hj
    | cons c rest2 =>
      have hhead : (getB heap a.body).next = some c.body := by
        have := hc.1
        simpa using this
      cases j with
      | zero =>
        have htg2 : target = c.body := by simpa using htg
        have hpa : ((getB heap a.body).next == some target) = true := by
          rw [hhead, htg2]
          simp
        rw [List.findIdx?_cons, hpa, if_pos rfl]
        simp
      | succ j2 =>
        have hj2m : j2 + 1 < ((c :: rest2).map AttachPtr.body).length := by simpa using hj
        have htg2 : target = ((c :: rest2).map AttachPtr.body)[j2 + 1] := by
          simpa using htg
        have hne : c.body ≠ target := by
          intro he
          have hnd2 : ((c :: rest2).map AttachPtr.body).Nodup := hnd.of_cons
          have h00 : ((c :: rest2).map AttachPtr.body)[0] = c.body := by simp
          have h0 : ((c :: rest2).map AttachPtr.body)[0] =
              ((c :: rest2).map AttachPtr.body)[j2 + 1] := by
            rw [h00, he, htg2]
          have := (List.Nodup.getElem_inj_iff hnd2).mp h0
          omega
        have hpa : ((getB heap a.body).next == some target) = false := by
          rw [hhead]
          exact beq_eq_false_iff_ne.mpr (fun he => hne (Option.some.inj he))
        rw [List.findIdx?_cons, hpa, if_neg (by simp : ¬(false = true))]
        have hrec := ih (i + 1) j2 hj2m htg2 hc.2 hnd.of_cons
        rw [hrec]
        congr 1
        omega

set_option maxHeartbeats 1000000 in
theorem delete_attachment_flat (t : St) (rindex : Nat) (h : FlatState t)
    (hr : rindex < t.idx.length) (hno : ¬(rindex = 0 ∧ t.idx.length = 1)) :
    (delete_attachment t rindex).2 = none ∧
    (delete_attachment t rindex).1.idx = t.idx.eraseIdx rindex ∧
    (delete_attachment t rindex).1.root = t.root ∧
    (delete_attachment t rindex).1.cur = t.cur ∧
    FlatState { (delete_attachment t rindex).1 with
      root := (getAP (t.idx.eraseIdx rindex) 0).body } := by
  have h0 := h.nonempty
  have hlen : 0 < t.idx.length := List.length_pos.mpr h0
  have hmlen : (t.idx.map AttachPtr.body).length = t.idx.length := by simp
  have hbr : rindex < (t.idx.map AttachPtr.body).length := by omega
  have hids_lt : ∀ b ∈ t.idx.map AttachPtr.body, b < t.heap.length := by
    intro b hb
    obtain ⟨a, ha, rfl⟩ := List.mem_map.mp hb
    exact h.bounded a ha
  obtain ⟨tg, htg⟩ : ∃ v, v = (getAP t.idx rindex).body := ⟨_, rfl⟩
  have hidst : (t.idx.map AttachPtr.body)[rindex] = tg := by
    rw [htg, getAP_eq _ _ hr]
    exact List.getElem_map AttachPtr.body
  have htglt : tg < t.heap.length := by
    refine hids_lt tg ?_
    rw [← hidst]
    exact List.getElem_mem _
  have hidsE : (t.idx.eraseIdx rindex).map AttachPtr.body =
      (t.idx.map AttachPtr.body).take rindex ++ (t.idx.map AttachPtr.body).drop (rindex + 1) := by
    rw [List.eraseIdx_eq_take_drop_succ, List.map_append, List.map_take, List.map_drop]
  have hlenE : (t.idx.eraseIdx rindex).length = t.idx.length - 1 := by
    rw [List.length_eraseIdx, if_pos hr]
  have hdecr : t.idx.map AttachPtr.body =
      (t.idx.map AttachPtr.body).take rindex ++
        tg :: (t.idx.map AttachPtr.body).drop (rindex + 1) := by
    have := list_decomp_at (t.idx.map AttachPtr.body) rindex hbr
    rw [hidst] at this
    exact this
  have hndparts := h.nodup
  rw [hdecr, List.nodup_append] at hndparts
  have hndT := hndparts.1
  have hndC := hndparts.2.1
  have hdisj := hndparts.2.2
  have htg_notT : tg ∉ (t.idx.map AttachPtr.body).take rindex :=
    fun hm => hdisj hm (List.mem_cons_self tg _)
  have htg_notD : tg ∉ (t.idx.map AttachPtr.body).drop (rindex + 1) :=
    (List.nodup_cons.mp hndC).1
  have hndD : ((t.idx.map AttachPtr.body).drop (rindex + 1)).Nodup :=
    (List.nodup_cons.mp hndC).2
  have hnodupE : ((t.idx.eraseIdx rindex).map AttachPtr.body).Nodup := by
    rw [hidsE, List.nodup_append]
    exact ⟨hndT, hndD, fun hx h1 h2 => hdisj h1 (List.mem_cons_of_mem tg h2)⟩
  have hmemE : ∀ a ∈ t.idx.eraseIdx rindex, a ∈ t.idx := by
    intro a ha
    rw [List.eraseIdx_eq_take_drop_succ] at ha
    rcases List.mem_append.mp ha with hm | hm
    · exact List.mem_of_mem_take hm
    · exact List.mem_of_mem_drop hm
  have hmemE_ne : ∀ a ∈ t.idx.eraseIdx rindex, a.body ≠ tg := by
    intro a ha he
    have hmm : a.body ∈ (t.idx.eraseIdx rindex).map AttachPtr.body :=
      List.mem_map_of_mem AttachPtr.body ha
    rw [hidsE] at hmm
    rcases List.mem_append.mp hmm with hm | hm
    · exact htg_notT (he ▸ hm)
    · exact htg_notD (he ▸ hm)
  by_cases hr0 : rindex = 0
  · -- deleting the first entry: no predecessor is found
    subst hr0
    have hdec0 : t.idx.map AttachPtr.body = tg :: (t.idx.map AttachPtr.body).drop 1 := by
      have h00 := List.drop_eq_getElem_cons hbr
      rw [List.drop_zero, hidst] at h00
      exact h00
    have htg_not1 : tg ∉ (t.idx.map AttachPtr.body).drop 1 := by
      have hnd := h.nodup
      rw [hdec0] at hnd
      exact (List.nodup_cons.mp hnd).1
    have hfY : findY t.heap t.idx tg = none := by
      unfold findY
      rw [List.findIdx?_eq_none_iff]
      intro a ha
      rw [beq_eq_false_iff_ne]
      exact chainSeg_next_ne t.heap tg (t.idx.map AttachPtr.body) none h.linked htg_not1
        (by simp) a.body (List.mem_map_of_mem AttachPtr.body ha)
    obtain ⟨H2, hH2⟩ : ∃ v, v = setB t.heap tg (fun b => { b with next := none }) := ⟨_, rfl⟩
    obtain ⟨H3, hH3⟩ : ∃ v, v = (if (getB H2 tg).hasEmail then H2
        else setB H2 tg (fun b => { b with parts := none })) := ⟨_, rfl⟩
    have hlen1 : t.idx.length ≠ 1 := fun he => hno ⟨rfl, he⟩
    have hda : delete_attachment t 0 =
        ({ t with heap := H3, idx := t.idx.eraseIdx 0 }, none) := by
      rw [hH3, hH2]
      simp only [delete_attachment, true_and]
      rw [if_neg hlen1, ← htg, hfY]
    have hH3len : H3.length = t.heap.length := by
      rw [hH3]
      split_ifs
      · rw [hH2, setB_length]
      · rw [setB_length, hH2, setB_length]
    have hH3get : ∀ b, b ≠ tg → getB H3 b = getB t.heap b := by
      intro b hb
      rw [hH3]
      split_ifs
      · rw [hH2, getB_setB_ne _ _ _ _ hb]
      · rw [getB_setB_ne _ _ _ _ hb, hH2, getB_setB_ne _ _ _ _ hb]
    refine ⟨by rw [hda], by rw [hda], by rw [hda], by rw [hda], ?_⟩
    rw [hda]
    show FlatState
      { heap := H3, root := (getAP (t.idx.eraseIdx 0) 0).body,
        idx := t.idx.eraseIdx 0, cur := t.cur }
    have hlen2 : 2 ≤ t.idx.length := by
      have hlen1 : t.idx.length ≠ 1 := fun he => hno ⟨rfl, he⟩
      omega
    refine ⟨?_, ?_, ?_, hnodupE, ?_, rfl, ?_⟩
    · intro he
      have := congrArg List.length he
      rw [hlenE] at this
      simp at this
      omega
    · intro a ha
      exact h.levels a (hmemE a ha)
    · intro a ha
      show a.body < H3.length
      rw [hH3len]
      exact h.bounded a (hmemE a ha)
    · show chainSeg H3 ((t.idx.eraseIdx 0).map AttachPtr.body) none
      rw [hidsE]
      simp only [List.take_zero, List.nil_append]
      have holdD : chainSeg t.heap ((t.idx.map AttachPtr.body).drop 1) none := by
        have hl := h.linked
        rw [hdec0] at hl
        exact hl.2
      refine chainSeg_congr t.heap H3 _ _ ?_ holdD
      intro b hb
      have hbne : b ≠ tg := fun he => htg_not1 (he ▸ hb)
      rw [hH3get b hbne]
    · intro a ha
      show expandsAsMultipart (getB H3 a.body) = false
      rw [hH3get a.body (hmemE_ne a ha)]
      exact h.noExpand a (hmemE a ha)
  · -- deleting a non-first entry: the predecessor is the previous array slot
    have hr1 : 1 ≤ rindex := by omega
    have hs1 : rindex - 1 + 1 = rindex := by omega
    have hbr1 : rindex - 1 < (t.idx.map AttachPtr.body).length := by omega
    have hr1lt : rindex - 1 < t.idx.length := by omega
    obtain ⟨pb, hpb⟩ : ∃ v, v = (getAP t.idx (rindex - 1)).body := ⟨_, rfl⟩
    have hidspb : (t.idx.map AttachPtr.body)[rindex - 1] = pb := by
      rw [hpb, getAP_eq _ _ hr1lt]
      exact List.getElem_map AttachPtr.body
    have hpblt : pb < t.heap.length := by
      refine hids_lt pb ?_
      rw [← hidspb]
      exact List.getElem_mem _
    have hpbtg : pb ≠ tg := by
      intro he
      have he2 : (t.idx.map AttachPtr.body)[rindex - 1] = (t.idx.map AttachPtr.body)[rindex] :=
        hidspb.trans (he.trans hidst.symm)
      have := (List.Nodup.getElem_inj_iff h.nodup).mp he2
      omega
    have htk : (t.idx.map AttachPtr.body).take rindex =
        (t.idx.map AttachPtr.body).take (rindex - 1) ++ [pb] := by
      conv_lhs => rw [← hs1]
      rw [take_succ_eq_ids _ _ (by omega), hidspb]
    have hfY : findY t.heap t.idx tg = some (rindex - 1) := by
      have htg1 : tg = (t.idx.map AttachPtr.body)[rindex - 1 + 1] := by
        simp only [hs1]
        exact hidst.symm
      have h5 := findY_chain_aux t.heap tg t.idx 0 (rindex - 1) (by omega) htg1
        h.linked h.nodup
      rw [Nat.zero_add] at h5
      unfold findY
      exact h5
    obtain ⟨H1, hH1⟩ : ∃ v, v = setB t.heap pb
        (fun b => { b with next := (getB t.heap tg).next }) := ⟨_, rfl⟩
    obtain ⟨H2, hH2⟩ : ∃ v, v = setB H1 tg (fun b => { b with next := none }) := ⟨_, rfl⟩
    obtain ⟨H3, hH3⟩ : ∃ v, v = (if (getB H2 tg).hasEmail then H2
        else setB H2 tg (fun b => { b with parts := none })) := ⟨_, rfl⟩
    have hda : delete_attachment t rindex =
        ({ t with heap := H3, idx := t.idx.eraseIdx rindex }, none) := by
      rw [hH3, hH2, hH1, hpb]
      simp only [delete_attachment]
      rw [if_neg hno, ← htg, hfY]
    have hH3len : H3.length = t.heap.length := by
      rw [hH3]
      split_ifs
      · rw [hH2, setB_length, hH1, setB_length]
      · rw [setB_length, hH2, setB_length, hH1, setB_length]
    have hH3get : ∀ b, b ≠ tg → b ≠ pb → getB H3 b = getB t.heap b := by
      intro b hbt hbp
      rw [hH3]
      split_ifs
      · rw [hH2, getB_setB_ne _ _ _ _ hbt, hH1, getB_setB_ne _ _ _ _ hbp]
      · rw [getB_setB_ne _ _ _ _ hbt, hH2, getB_setB_ne _ _ _ _ hbt, hH1,
          getB_setB_ne _ _ _ _ hbp]
    have hH3pb : getB H3 pb = { getB t.heap pb with next := (getB t.heap tg).next } := by
      rw [hH3]
      split_ifs
      · rw [hH2, getB_setB_ne _ _ _ _ hpbtg, hH1, getB_setB_self _ _ _ hpblt]
      · rw [getB_setB_ne _ _ _ _ hpbtg, hH2, getB_setB_ne _ _ _ _ hpbtg, hH1,
          getB_setB_self _ _ _ hpblt]
    -- the old chain split around the victim
    have hold := h.linked
    rw [hdecr, chainSeg_append] at hold
    have htgnext : (getB t.heap tg).next =
        (((t.idx.map AttachPtr.body).drop (rindex + 1)).head?.orElse (fun _ => none)) := by
      simpa using hold.2.1
    have holdD : chainSeg t.heap ((t.idx.map AttachPtr.body).drop (rindex + 1)) none :=
      hold.2.2
    have holdT := hold.1
    rw [htk, chainSeg_append] at holdT
    have holdT1 : chainSeg t.heap ((t.idx.map AttachPtr.body).take (rindex - 1)) (some pb) :=
      holdT.1
    have hpb_notT1 : pb ∉ (t.idx.map AttachPtr.body).take (rindex - 1) := by
      have := hndT
      rw [htk, List.nodup_append] at this
      exact fun hm => this.2.2 hm (List.mem_cons_self pb [])
    have htg_notT1 : tg ∉ (t.idx.map AttachPtr.body).take (rindex - 1) := by
      intro hm
      apply htg_notT
      rw [htk]
      exact List.mem_append.mpr (Or.inl hm)
    have hpb_notD : pb ∉ (t.idx.map AttachPtr.body).drop (rindex + 1) := by
      intro hm
      refine hdisj ?_ (List.mem_cons_of_mem tg hm)
      rw [htk]
      exact List.mem_append.mpr (Or.inr (List.mem_cons_self pb []))
    refine ⟨by rw [hda], by rw [hda], by rw [hda], by rw [hda], ?_⟩
    rw [hda]
    show FlatState
      { heap := H3, root := (getAP (t.idx.eraseIdx rindex) 0).body,
        idx := t.idx.eraseIdx rindex, cur := t.cur }
    refine ⟨?_, ?_, ?_, hnodupE, ?_, rfl, ?_⟩
    · intro he
      have := congrArg List.length he
      rw [hlenE] at this
      simp at this
      omega
    · intro a ha
      exact h.levels a (hmemE a ha)
    · intro a ha
      show a.body < H3.length
      rw [hH3len]
      exact h.bounded a (hmemE a ha)
    · show chainSeg H3 ((t.idx.eraseIdx rindex).map AttachPtr.body) none
      rw [hidsE, htk]
      have hassoc : ((t.idx.map AttachPtr.body).take (rindex - 1) ++ [pb]) ++
          (t.idx.map AttachPtr.body).drop (rindex + 1) =
          (t.idx.map AttachPtr.body).take (rindex - 1) ++
            pb :: (t.idx.map AttachPtr.body).drop (rindex + 1) := by simp
      rw [hassoc, chainSeg_append]
      constructor
      · refine chainSeg_congr t.heap H3 _ _ ?_ holdT1
        intro b hb
        have hbt : b ≠ tg := fun he => htg_notT1 (he ▸ hb)
        have hbp : b ≠ pb := fun he => hpb_notT1 (he ▸ hb)
        rw [hH3get b hbt hbp]
      · refine ⟨?_, ?_⟩
        · show (getB H3 pb).next =
            ((((t.idx.map AttachPtr.body).drop (rindex + 1)).head?).orElse (fun _ => none))
          rw [hH3pb]
          exact htgnext
        · refine chainSeg_congr t.heap H3 _ _ ?_ holdD
          intro b hb
          have hbt : b ≠ tg := fun he => htg_notD (he ▸ hb)
          have hbp : b ≠ pb := fun he => hpb_notD (he ▸ hb)
          rw [hH3get b hbt hbp]
    · intro a ha
      show expandsAsMultipart (getB H3 a.body) = false
      by_cases hbp : a.body = pb
      · rw [hbp, hH3pb, expandsAsMultipart_set_next]
        rw [hpb]
        exact h.noExpand _ (getAP_mem _ _ hr1lt)
      · rw [hH3get a.body (hmemE_ne a ha) hbp]
        exact h.noExpand a (hmemE a ha)

set_option maxHeartbeats 1000000 in
theorem opDelete_preserves_flat (s : St) (h : FlatState s) (hcur : s.cur < s.idx.length) :
    FlatState (opDelete s).1 := by
  have h0 := h.nonempty
  have hlen : 0 < s.idx.length := List.length_pos.mpr h0
  have hne : ¬(s.idx.length = 0) := by omega
  obtain ⟨t, ht, htidx, htroot, htcur, hteq⟩ :
      ∃ t, FlatState t ∧ t.idx = s.idx ∧ t.root = s.root ∧ t.cur = s.cur ∧
        (if (getAP s.idx s.cur).unowned then
            { s with heap := setB s.heap (getAP s.idx s.cur).body (fun b => { b with unlink := false }) }
          else s) = t := by
    split_ifs with hu
    · refine ⟨{ s with heap := setB s.heap (getAP s.idx s.cur).body (fun b => { b with unlink := false }) }, ?_, rfl, rfl, rfl, rfl⟩
      exact flatState_setB_inert s _ _ (h.bounded _ (getAP_mem _ _ hcur))
        (fun b => rfl) (fun b => rfl) h
    · exact ⟨s, h, rfl, rfl, rfl, rfl⟩
  have hcurT : t.cur < t.idx.length := by rw [htcur, htidx]; exact hcur
  by_cases hrej : t.cur = 0 ∧ t.idx.length = 1
  · -- sole-attachment rejection: only the tagged flag of the lone entry changes
    have hda : delete_attachment t t.cur =
        ({ t with heap := setB t.heap (getAP t.idx 0).body (fun b => { b with tagged := false }) }, some CErr.soleAttachment) := by
      simp only [delete_attachment]
      rw [if_pos hrej]
    have hop : (opDelete s).1 = { t with heap := setB t.heap (getAP t.idx 0).body (fun b => { b with tagged := false }) } := by
      simp only [opDelete]
      rw [if_neg hne, hteq, hda]
    rw [hop]
    refine flatState_setB_inert t _ _ ?_ (fun b => rfl) (fun b => rfl) ht
    exact ht.bounded _ (getAP_mem _ _ (by omega))
  · -- successful deletion
    obtain ⟨hnone, hidx1, hroot1, hcur1, hflat1⟩ := delete_attachment_flat t t.cur ht hcurT hrej
    rcases hda : delete_attachment t t.cur with ⟨s1, e1⟩
    rw [hda] at hnone hidx1 hroot1 hcur1 hflat1
    have he1 : e1 = none := hnone
    subst he1
    have hidx2 : s1.idx = t.idx.eraseIdx t.cur := hidx1
    have hroot2 : s1.root = t.root := hroot1
    have hcur2 : s1.cur = t.cur := hcur1
    have hflat2 : FlatState { s1 with root := (getAP (t.idx.eraseIdx t.cur) 0).body } := hflat1
    have hlenE : s1.idx.length = t.idx.length - 1 := by
      rw [hidx2, List.length_eraseIdx, if_pos hcurT]
    have hlen2 : 2 ≤ t.idx.length := by
      rcases Nat.eq_or_lt_of_le hlen with h1 | h1
      · exfalso
        apply hrej
        constructor
        · omega
        · rw [htidx]; omega
      · rw [htidx]; omega
    set c2 := (if s1.cur ≥ s1.idx.length then s1.idx.length - 1 else s1.cur) with hc2
    have hop : (opDelete s).1 =
        (if c2 = 0 then { s1 with cur := c2, root := (getAP s1.idx 0).body }
         else { s1 with cur := c2 }) := by
      simp only [opDelete]
      rw [if_neg hne, hteq, hda]
    rw [hop]
    split_ifs with hzero
    · -- the cursor landed on the first slot: the root is refreshed
      have hgv : (getAP s1.idx 0).body = (getAP (t.idx.eraseIdx t.cur) 0).body := by
        rw [hidx2]
      rw [hgv]
      exact flatState_cur _ c2 hflat2
    · -- the cursor stayed off the first slot: the first entry was untouched
      have htc1 : 1 ≤ t.cur := by
        by_contra hcc
        have hc0 : t.cur = 0 := by omega
        apply hzero
        rw [hc2, hcur2, hc0]
        rw [if_neg (by omega : ¬(0 ≥ s1.idx.length))]
      have hgv : (getAP (t.idx.eraseIdx t.cur) 0).body = s1.root := by
        have htake_len : 0 < (t.idx.take t.cur).length := by
          rw [List.length_take]
          omega
        have hg1 : getAP (t.idx.eraseIdx t.cur) 0 = getAP (t.idx.take t.cur) 0 := by
          rw [List.eraseIdx_eq_take_drop_succ]
          exact getAP_append_left _ _ 0 htake_len
        have hg2 : getAP (t.idx.take t.cur) 0 = getAP t.idx 0 := by
          rw [getAP_eq _ 0 htake_len, getAP_eq _ 0 (by omega : 0 < t.idx.length)]
          exact List.getElem_take t.idx
        rw [hg1, hg2, hroot2, ht.rootEq]
      have hsame : { s1 with root := (getAP (t.idx.eraseIdx t.cur) 0).body } = s1 := by
        rw [hgv]
      rw [show ({ s1 with cur := c2 } : St) =
          { { s1 with root := (getAP (t.idx.eraseIdx t.cur) 0).body } with cur := c2 } from by
        rw [hsame]]
      exact flatState_cur _ c2 hflat2

/-- C1 (amended): on a flat top-level state — every entry at depth 0, the
entries' bodies forming the root's sibling chain, no expandable composite
present — the flatten/array correspondence of spec §4.1 does hold for the
list-editing operations: re-flattening the tree from the root after an
append, an insert (at positions 1..length), a delete, a move-up or a
move-down yields exactly the maintained array's (body, level) pairs.  The
grouping operations are excluded: `groupAlts_breaks_flatten_consistency`
shows the correspondence fails after OP_COMPOSE_GROUP_ALTS, because
`mutt_gen_compose_attach_list` never records a composite and keeps its
children at the composite's own depth. -/
theorem flat_ops_keep_flatten_consistent (s : St) (h : FlatState s) :
    flattenSt s = idxPairs s ∧
    (∀ nb : Body, nb.next = none → expandsAsMultipart nb = false →
      flattenSt (opAppend s nb) = idxPairs (opAppend s nb)) ∧
    (∀ nb : Body, ∀ aidx : Nat, 1 ≤ aidx → aidx ≤ s.idx.length →
      nb.next = none → expandsAsMultipart nb = false →
      flattenSt (opInsert s nb aidx) = idxPairs (opInsert s nb aidx)) ∧
    (s.cur < s.idx.length →
      flattenSt (opDelete s).1 = idxPairs (opDelete s).1) ∧
    (2 ≤ s.cur → s.cur < s.idx.length →
      flattenSt (opMoveUp s).1 = idxPairs (opMoveUp s).1) ∧
    (1 ≤ s.cur → s.cur + 1 < s.idx.length →
      flattenSt (opMoveDown s).1 = idxPairs (opMoveDown s).1) := by
  refine ⟨flatten_of_flatState s h, ?_, ?_, ?_, ?_, ?_⟩
  · intro nb h1 h2
    exact flatten_of_flatState _ (opAppend_preserves_flat s nb h h1 h2)
  · intro nb aidx h1 h2 h3 h4
    exact flatten_of_flatState _ (opInsert_preserves_flat s nb aidx h h1 h2 h3 h4)
  · intro h1
    exact flatten_of_flatState _ (opDelete_preserves_flat s h h1)
  · intro h1 h2
    exact flatten_of_flatState _ (opMoveUp_preserves_flat s h h1 h2)
  · intro h1 h2
    exact flatten_of_flatState _ (opMoveDown_preserves_flat s h h1 h2)

/-- Witness for C1's amended theorem at the Scenario-B state with the
cursor on the last entry: the correspondence holds before the operation,
after a move-up and after a delete. -/
theorem flat_ops_keep_flatten_consistent_witness :
    flattenSt { st3 with cur := 2 } = idxPairs { st3 with cur := 2 } ∧
    flattenSt (opMoveUp { st3 with cur := 2 }).1 = idxPairs (opMoveUp { st3 with cur := 2 }).1 ∧
    flattenSt (opDelete { st3 with cur := 2 }).1 = idxPairs (opDelete { st3 with cur := 2 }).1 := by
  have hf : FlatState { st3 with cur := 2 } :=
    ⟨by decide, by decide, by decide, by decide, ⟨rfl, rfl, rfl, trivial⟩, rfl, by decide⟩
  obtain ⟨h1, h2, h3, h4, h5, h6⟩ := flat_ops_keep_flatten_consistent { st3 with cur := 2 } hf
  exact ⟨h1, h5 (by decide) (by decide), h4 (by decide)⟩

theorem getAP_append_len (l1 l2 : List AttachPtr) (j : Nat) :
    getAP (l1 ++ l2) (l1.length + j) = getAP l2 j := by
  unfold getAP
  induction l1 with
  | nil => simp
  | cons a l1 ih =>
    show ((a :: l1) ++ l2).getD ((a :: l1).length + j) default = l2.getD j default
    have hidx : (a :: l1).length + j = l1.length + j + 1 := by
      simp
      omega
    rw [hidx, List.cons_append, List.getD_cons_succ]
    exact ih

theorem orElse_none_eq (o : Option Nat) : (o.orElse (fun _ => none)) = o := by
  cases o <;> rfl

theorem bumpNums_pairs (U : List AttachPtr) :
    (bumpNums U).map (fun a => (a.body, a.level)) = U.map (fun a => (a.body, a.level)) := by
  cases U with
  | nil => rfl
  | cons a U2 =>
    simp only [bumpNums, List.map_cons, List.map_map]
    rfl

theorem bumpNums_bodies (U : List AttachPtr) :
    (bumpNums U).map AttachPtr.body = U.map AttachPtr.body := by
  cases U with
  | nil => rfl
  | cons a U2 =>
    simp only [bumpNums, List.map_cons, List.map_map]
    rfl

theorem bumpNums_length (U : List AttachPtr) : (bumpNums U).length = U.length := by
  cases U with
  | nil => rfl
  | cons a U2 => simp [bumpNums]

theorem bumpNums_level (U : List AttachPtr) (h : ∀ a ∈ U, a.level = 0) :
    ∀ a ∈ bumpNums U, a.level = 0 := by
  cases U with
  | nil =>
    intro a ha
    simp [bumpNums] at ha
  | cons z U2 =>
    intro a ha
    simp only [bumpNums, List.mem_cons] at ha
    rcases ha with rfl | ha2
    · exact h _ (List.mem_cons_self _ _)
    · obtain ⟨b, hb, rfl⟩ := List.mem_map.mp ha2
      show b.level = 0
      exact h b (List.mem_cons_of_mem z hb)
